import Mathlib

/-!
Verification development for the py-base repository (py_base/__init__.py).

This file gives a shallow embedding of the parts of the code that the
specification's testable properties talk about:

* the process-wide indentation state of `IndentedOutput`
  (`indent` / `unIndent` / `put`, module global `INDENT_SIZE`);
* the `Job` lifecycle (`start` / `finish` / `saveConfig` /
  `getEmailConfigFromArgsAndConfigFile`) over an explicit file-system map,
  with the JSON (de)serialization done by `json.dumps(indent=4,
  sort_keys=True)` and `json.load` embedded as an executable
  pretty-printer / parser pair on a JSON value type;
* the constructor chain `Job.__init__` -> `MinimalJob.__init__` at the
  level of Python call/parameter binding.

Python dicts (unordered, unique keys) are represented canonically as
key-sorted association lists; machine-level details that the claims do not
observe (file handles, the logging module's handler objects) are elided,
while the observable data (file bytes, emitted log lines, indentation
depth, exit codes) are modelled explicitly.
-/

namespace PyBase

/-! ## JSON values

`json.load` produces (for the inputs this program ever reasons about)
nested dicts/lists/strings/ints/bools/None.  Numbers are modelled as
integers: the configuration values this program writes
(`lastRunDateTime` components) are integers, and float formatting is not
observed by any claim. -/

inductive Json where
  | null : Json
  | bool (b : Bool) : Json
  | num (n : Int) : Json
  | str (s : String) : Json
  | arr (items : List Json) : Json
  | obj (fields : List (String × Json)) : Json

/-- Byte-wise lexicographic order on character lists, matching how Python 2
sorts `str` keys in `sorted()` / `json.dumps(sort_keys=True)`. -/
def listCharLt : List Char → List Char → Bool
  | [], [] => false
  | [], _ :: _ => true
  | _ :: _, [] => false
  | a :: as, b :: bs =>
    if a.toNat < b.toNat then true
    else if a.toNat = b.toNat then listCharLt as bs
    else false

/-- Strict key order used for the canonical (sorted) dict representation. -/
def strLtB (a b : String) : Bool := listCharLt a.data b.data

/-! ## Python dicts

A Python dict is unordered with unique keys; it is represented canonically
as a key-sorted association list.  `dget`/`dset` model `d[k]` lookup and
`d[k] = v` assignment, `dupdate` models `dict.update`. -/

abbrev Dict := List (String × Json)

def dget : Dict → String → Option Json
  | [], _ => none
  | (k, v) :: d, key => if k = key then some v else dget d key

def dset : Dict → String → Json → Dict
  | [], key, val => [(key, val)]
  | (k, v) :: d, key, val =>
    if strLtB key k then (key, val) :: (k, v) :: d
    else if key = k then (key, val) :: d
    else (k, v) :: dset d key val

/-- Model of `dict.update(other)`: fold assignment over the other dict's
pairs (for parsed JSON text, in text order, so that a later duplicate key
wins exactly as it does in `json.load`). -/
def dupdate (d : Dict) (l : List (String × Json)) : Dict :=
  l.foldl (fun acc kv => dset acc kv.1 kv.2) d

/-- Keys of an association list, in order. -/
def dkeys (d : Dict) : List String := d.map Prod.fst

/-- The association list is strictly sorted by key: the well-formedness of
the canonical representation of a Python dict. -/
def keysSortedB : List (String × Json) → Bool
  | [] => true
  | [_] => true
  | (k1, _) :: (k2, v2) :: d =>
    strLtB k1 k2 && keysSortedB ((k2, v2) :: d)

/-! Structural well-formedness of a JSON value as produced by Python:
every object is a dict, i.e. canonically key-sorted with no duplicates. -/

mutual

def wfJ : Json → Bool
  | .null => true
  | .bool _ => true
  | .num _ => true
  | .str _ => true
  | .arr items => wfItems items
  | .obj fields => keysSortedB fields && wfFields fields

def wfItems : List Json → Bool
  | [] => true
  | x :: xs => wfJ x && wfItems xs

def wfFields : List (String × Json) → Bool
  | [] => true
  | f :: fs => wfJ f.2 && wfFields fs

end

/-! ## Python string helpers used by the source

`str.splitlines()` (used by `IndentedOutput.put` and `Job.saveConfig`) and
`str.rstrip()` (used by `Job.saveConfig`), modelled on character lists with
the newline character as line separator. -/

/-- Characters stripped by `str.rstrip()` that can occur inside a line
(a line produced by `splitlines` never contains a newline). -/
def isLineWs (c : Char) : Bool := c = ' ' || c = '\t' || c = '\r'

/-- Split off the first line: the characters before the first newline, and
the remainder after that newline when there is one. -/
def breakNl : List Char → List Char × Option (List Char)
  | [] => ([], none)
  | c :: cs =>
    if c = '\n' then ([], some cs)
    else
      let (l, r) := breakNl cs
      (c :: l, r)

/-- Python `str.splitlines()` restricted to the newline separator: no line
for the empty string, and no trailing empty line for text ending in a
newline. -/
def splitlinesCh (cs : List Char) : List (List Char) :=
  if _hcs : cs = [] then []
  else
    match h : breakNl cs with
    | (l, none) => [l]
    | (l, some r) => l :: splitlinesCh r
termination_by cs.length
decreasing_by
  have key : ∀ (xs : List Char) (l r : List Char), breakNl xs = (l, some r) →
      r.length < xs.length := by
    intro xs
    induction xs with
    | nil => intro l r h; simp [breakNl] at h
    | cons c cs ih =>
      intro l r h
      by_cases hc : c = '\n'
      · simp [breakNl, hc] at h
        simp [h.2]
      · simp [breakNl, hc] at h
        rcases hbreak : breakNl cs with ⟨l0, r0⟩
        rw [hbreak] at h
        rcases h with ⟨h1, h2⟩
        cases r0 with
        | none => simp [h2] at *
        | some r0 =>
          have := ih l0 r0 hbreak
          simp at h2
          subst h2
          simp
          omega
  exact key cs l r h

/-- Python `str.rstrip()` on a single line. -/
def rstripCh (cs : List Char) : List Char :=
  (cs.reverse.dropWhile (fun c => isLineWs c)).reverse

/-- The body of `Job.saveConfig`'s write loop:
`for line in content.splitlines(): f.write(line.rstrip() + '\n')`. -/
def saveLines (cs : List Char) : List Char :=
  ((splitlinesCh cs).map (fun l => rstripCh l ++ ['\n'])).flatten

/-! ## The embedded `json.dumps(indent=4, sort_keys=True)`

The printer mirrors the layout of Python 2's pretty printer: four-space
indentation per level, one element per line, `": "` after object keys,
keys sorted at print time.  Python 2 additionally leaves a trailing space
after each element comma; `saveConfig` rstrips every line before it
reaches the disk, so that space is unobservable in the file and the
printer is embedded with the post-strip line bodies (this is proved
consistent below: `saveLines` on the printed text only appends the final
newline). -/

def ind4 (k : Nat) : List Char := List.replicate (4 * k) ' '

/-- String escaping as performed by the JSON encoder for the characters
that this program's data can contain.  (The `\uXXXX` escapes that Python
additionally applies to other control and non-ASCII characters are elided;
they are inverted by `json.load` just like the short escapes.) -/
def escapeChar (c : Char) : List Char :=
  if c = '"' then ['\\', '"']
  else if c = '\\' then ['\\', '\\']
  else if c = '\n' then ['\\', 'n']
  else if c = '\r' then ['\\', 'r']
  else if c = '\t' then ['\\', 't']
  else [c]

def escChars (l : List Char) : List Char := (l.map escapeChar).flatten

def digitChar (n : Nat) : Char := Char.ofNat (48 + n)

/-- Decimal digits of a natural number, most significant first. -/
def natDigits (n : Nat) : List Char :=
  if h : n < 10 then [digitChar n]
  else natDigits (n / 10) ++ [digitChar (n % 10)]
termination_by n
decreasing_by exact Nat.div_lt_self (by omega) (by omega)

/-- Decimal rendering of a Python int. -/
def intRepr (n : Int) : List Char :=
  if n < 0 then '-' :: natDigits n.natAbs else natDigits n.natAbs

/-- Insert one field into a key-sorted field list (Python `sorted` on the
keys; dict inputs never carry duplicate keys). -/
def insertField (f : String × Json) : List (String × Json) → List (String × Json)
  | [] => [f]
  | g :: gs => if strLtB f.1 g.1 then f :: g :: gs else g :: insertField f gs

def sortFields : List (String × Json) → List (String × Json)
  | [] => []
  | f :: fs => insertField f (sortFields fs)

mutual

/-- The key sorting `json.dumps(sort_keys=True)` applies at every object
level while printing, pulled out as a value transformation. -/
def sortKeysDeep : Json → Json
  | .null => .null
  | .bool b => .bool b
  | .num n => .num n
  | .str s => .str s
  | .arr items => .arr (sortItems items)
  | .obj fields => .obj (sortFields (sortVals fields))

def sortItems : List Json → List Json
  | [] => []
  | x :: xs => sortKeysDeep x :: sortItems xs

def sortVals : List (String × Json) → List (String × Json)
  | [] => []
  | f :: fs => (f.1, sortKeysDeep f.2) :: sortVals fs

end

mutual

/-- Pretty-printed text of one JSON value at nesting level `k` (the text
`json.dumps` produces for it, minus the rstripped trailing spaces). -/
def pV : Nat → Json → List Char
  | _, .null => ['n', 'u', 'l', 'l']
  | _, .bool true => ['t', 'r', 'u', 'e']
  | _, .bool false => ['f', 'a', 'l', 's', 'e']
  | _, .num n => intRepr n
  | _, .str s => '"' :: (escChars s.data ++ ['"'])
  | _, .arr [] => ['[', ']']
  | k, .arr (x :: xs) =>
    '[' :: '\n' :: (ind4 (k + 1) ++ pV (k + 1) x ++ pItems (k + 1) xs
      ++ '\n' :: (ind4 k ++ [']']))
  | _, .obj [] => ['{', '}']
  | k, .obj (f :: fs) =>
    '{' :: '\n' :: (ind4 (k + 1) ++ pField (k + 1) f ++ pFields (k + 1) fs
      ++ '\n' :: (ind4 k ++ ['}']))

/-- Printed text of one `"key": value` pair. -/
def pField : Nat → String × Json → List Char
  | k, (key, v) => '"' :: (escChars key.data ++ '"' :: ':' :: ' ' :: pV k v)

/-- Printed text of the remaining array elements, each preceded by the
element separator (comma, newline, indentation). -/
def pItems : Nat → List Json → List Char
  | _, [] => []
  | k, x :: xs => ',' :: '\n' :: (ind4 k ++ pV k x ++ pItems k xs)

/-- Printed text of the remaining object fields. -/
def pFields : Nat → List (String × Json) → List Char
  | _, [] => []
  | k, f :: fs => ',' :: '\n' :: (ind4 k ++ pField k f ++ pFields k fs)

end

/-- The embedded `json.dumps(self.config, indent=4, sort_keys=True)`. -/
def dumps (j : Json) : List Char := pV 0 (sortKeysDeep j)

/-! ## The embedded `json.load`

A recursive-descent parser over the file's characters, with a fuel
argument bounding the recursion depth; `loadJson` supplies more fuel than
any input can consume.  Objects are collected in text order (duplicate
keys can then only arise from hand-written files, which no claim
observes). -/

def isDigitC (c : Char) : Bool := 48 ≤ c.toNat && c.toNat ≤ 57

def isWsC (c : Char) : Bool := c = ' ' || c = '\n' || c = '\t' || c = '\r'

def skipWs : List Char → List Char
  | [] => []
  | c :: cs => if isWsC c then skipWs cs else c :: cs

def parseNatAcc : List Char → Nat → Nat × List Char
  | [], acc => (acc, [])
  | c :: cs, acc =>
    if isDigitC c then parseNatAcc cs (acc * 10 + (c.toNat - 48))
    else (acc, c :: cs)

def unescapeChar (c : Char) : Option Char :=
  if c = '"' then some '"'
  else if c = '\\' then some '\\'
  else if c = '/' then some '/'
  else if c = 'n' then some '\n'
  else if c = 'r' then some '\r'
  else if c = 't' then some '\t'
  else if c = 'b' then some (Char.ofNat 8)
  else if c = 'f' then some (Char.ofNat 12)
  else none

/-- Parse the body of a string literal up to its closing quote. -/
def parseStrChars : List Char → Option (List Char × List Char)
  | [] => none
  | c :: cs =>
    if c = '"' then some ([], cs)
    else if c = '\\' then
      match cs with
      | [] => none
      | e :: cs2 =>
        match unescapeChar e with
        | none => none
        | some u =>
          match parseStrChars cs2 with
          | none => none
          | some (s, rest) => some (u :: s, rest)
    else
      match parseStrChars cs with
      | none => none
      | some (s, rest) => some (c :: s, rest)

/-- Expect a fixed literal continuation (rest of a keyword). -/
def expectChars : List Char → List Char → Option (List Char)
  | [], cs => some cs
  | p :: ps, [] => none
  | p :: ps, c :: cs => if c = p then expectChars ps cs else none

mutual

/-- Parse one JSON value (leading whitespace allowed). -/
def parseVal : Nat → List Char → Option (Json × List Char)
  | 0, _ => none
  | fuel + 1, cs =>
    match skipWs cs with
    | [] => none
    | c :: rest =>
      if c = 'n' then (expectChars ['u', 'l', 'l'] rest).map (fun r => (.null, r))
      else if c = 't' then (expectChars ['r', 'u', 'e'] rest).map (fun r => (.bool true, r))
      else if c = 'f' then
        (expectChars ['a', 'l', 's', 'e'] rest).map (fun r => (.bool false, r))
      else if c = '"' then
        match parseStrChars rest with
        | none => none
        | some (s, rest2) => some (.str (String.mk s), rest2)
      else if c = '[' then
        match skipWs rest with
        | [] => none
        | d :: rest2 =>
          if d = ']' then some (.arr [], rest2)
          else
            match parseVal fuel (d :: rest2) with
            | none => none
            | some (v, r) =>
              match parseItemsRest fuel r with
              | none => none
              | some (vs, r2) => some (.arr (v :: vs), r2)
      else if c = '{' then
        match skipWs rest with
        | [] => none
        | d :: rest2 =>
          if d = '}' then some (.obj [], rest2)
          else
            match parseFieldP fuel (d :: rest2) with
            | none => none
            | some (f, r) =>
              match parseFieldsRest fuel r with
              | none => none
              | some (fs, r2) => some (.obj (f :: fs), r2)
      else if c = '-' then
        match rest with
        | [] => none
        | d :: _ =>
          if isDigitC d then
            let p := parseNatAcc rest 0
            some (.num (-(p.1 : Int)), p.2)
          else none
      else if isDigitC c then
        let p := parseNatAcc (c :: rest) 0
        some (.num ((p.1 : Int)), p.2)
      else none

/-- Parse one `"key": value` pair (leading whitespace allowed). -/
def parseFieldP : Nat → List Char → Option ((String × Json) × List Char)
  | 0, _ => none
  | fuel + 1, cs =>
    match skipWs cs with
    | [] => none
    | c :: rest =>
      if c = '"' then
        match parseStrChars rest with
        | none => none
        | some (s, rest2) =>
          match skipWs rest2 with
          | [] => none
          | d :: rest3 =>
            if d = ':' then
              match parseVal fuel rest3 with
              | none => none
              | some (v, r) => some ((String.mk s, v), r)
            else none
      else none

/-- After one array element: either the closing bracket or a comma and
further elements. -/
def parseItemsRest : Nat → List Char → Option (List Json × List Char)
  | 0, _ => none
  | fuel + 1, cs =>
    match skipWs cs with
    | [] => none
    | c :: rest =>
      if c = ']' then some ([], rest)
      else if c = ',' then
        match parseVal fuel rest with
        | none => none
        | some (v, r) =>
          match parseItemsRest fuel r with
          | none => none
          | some (vs, r2) => some (v :: vs, r2)
      else none

/-- After one object field: either the closing brace or a comma and
further fields. -/
def parseFieldsRest : Nat → List Char → Option (List (String × Json) × List Char)
  | 0, _ => none
  | fuel + 1, cs =>
    match skipWs cs with
    | [] => none
    | c :: rest =>
      if c = '}' then some ([], rest)
      else if c = ',' then
        match parseFieldP fuel rest with
        | none => none
        | some (f, r) =>
          match parseFieldsRest fuel r with
          | none => none
          | some (fs, r2) => some (f :: fs, r2)
      else none

end

/-- The embedded `json.load`: parse the whole text, requiring that only
whitespace remains after the top-level value. -/
def loadJson (cs : List Char) : Option Json :=
  match parseVal (cs.length + 1) cs with
  | none => none
  | some (v, rest) => if skipWs rest = [] then some v else none

/-! Fuel sufficient to parse a given value back. -/

mutual

def fuelJ : Json → Nat
  | .null => 1
  | .bool _ => 1
  | .num _ => 1
  | .str _ => 1
  | .arr items => 1 + fuelItems items
  | .obj fields => 1 + fuelFields fields

def fuelItems : List Json → Nat
  | [] => 1
  | x :: xs => 1 + fuelJ x + fuelItems xs

def fuelFields : List (String × Json) → Nat
  | [] => 1
  | f :: fs => 2 + fuelJ f.2 + fuelFields fs

end

/-- The first character of the remaining input is not a digit (so a digit
run before it cannot leak into it). -/
def nonDigitHeadB : List Char → Bool
  | [] => true
  | c :: _ => !isDigitC c

def digitsVal (ds : List Char) (acc : Nat) : Nat :=
  ds.foldl (fun a c => a * 10 + (c.toNat - 48)) acc

def sepR (a b : Char) : Prop := isLineWs a = false ∨ b ≠ '\n'

/-! ## IndentedOutput: the process-wide indentation state

`INDENT_SIZE` is a module-level Python int shared by every
`IndentedOutput` instance; it is modelled as an explicitly threaded `Int`.
`indent` executes `INDENT_SIZE += 1`; `unIndent` executes
`INDENT_SIZE = max(INDENT_SIZE - 1, 0)`. -/

def INDENT_STRING : String := "| "

inductive IndentOp where
  | ind : IndentOp
  | unind : IndentOp

/-- One `indent` (scope-entering) or `unIndent` (scope-releasing) call's
effect on `INDENT_SIZE`. -/
def stepIndent (d : Int) : IndentOp → Int
  | .ind => d + 1
  | .unind => max (d - 1) 0

def runIndent (d : Int) (ops : List IndentOp) : Int := ops.foldl stepIndent d

def countIndents : List IndentOp → Nat
  | [] => 0
  | .ind :: rest => 1 + countIndents rest
  | .unind :: rest => countIndents rest

/-- The number of `unIndent` calls in the trace that fired above depth
zero (an `unIndent` at depth zero is floored and decrements nothing). -/
def effUnIndents : Int → List IndentOp → Nat
  | _, [] => 0
  | d, .ind :: rest => effUnIndents (d + 1) rest
  | d, .unind :: rest => (if 0 < d then 1 else 0) + effUnIndents (max (d - 1) 0) rest

def unIndentStep (d : Int) : Int := max (d - 1) 0

/-- One call of `IndentedOutput.indent` (source lines 265-287), with the
possibility that an emission raises modelled explicitly.
`msg = none`: no title given; `msg = some b`: a title is given and `b`
says whether `self.put(msg, logLevel)` raises.  `items = none`: the
scope-handle form (returns an `IndentContext`); `items = some flags`: the
batch form, one flag per list item saying whether emitting it raises.
The result is the final `INDENT_SIZE` and whether the call raised: the
`try` body runs up to the first raise, and the `finally` clause runs
`unIndent` exactly when an item list was given. -/
def indentCall (d : Int) (msg : Option Bool) (items : Option (List Bool)) :
    Int × Bool :=
  let body : Int × Bool :=
    match msg with
    | some true => (d, true)
    | _ =>
      let d1 := d + 1
      match items with
      | none => (d1, false)
      | some flags => (d1, flags.contains true)
  if items.isSome then (unIndentStep body.1, body.2) else body

/-- The `with`-statement around the scope handle returned by `indent`:
if `indent` itself raised, no handle exists and no release runs;
otherwise the body runs and `IndentContext.__exit__` (which calls
`unIndent`) runs whether or not the body raised. -/
def withIndentScope (d : Int) (msgRaises : Option Bool)
    (body : Int → Int × Bool) : Int × Bool :=
  let e := indentCall d msgRaises none
  if e.2 then e
  else
    let b := body e.1
    (unIndentStep b.1, b.2)

/-! ## IndentedOutput.put -/

/-- Input shapes accepted by `put`: a (possibly multi-line) string, a
non-iterable scalar (shown via its `str()` text), or an iterable of items
(each shown via its `str()` text). -/
inductive PutMsg where
  | str (s : String)
  | scalar (text : String)
  | seq (items : List String)

/-- The lines `put` derives from its argument: `splitlines()` for a
string, a one-element list for a scalar, one entry per item for an
iterable. -/
def putLines : PutMsg → List String
  | .str s => (splitlinesCh s.data).map String.mk
  | .scalar t => [t]
  | .seq items => items

/-- The text `self.indentString * INDENT_SIZE` (a Python int times a
string is empty for a non-positive count). -/
def indentPrefix (d : Int) : String :=
  String.mk (List.flatten (List.replicate d.toNat INDENT_STRING.data))

/-- One formatted line: indentation, then the ISO timestamp when
timestamps are enabled, then the message text. -/
def fmtLine (d : Int) (enableTimestamps : Bool) (ts : String) (line : String) :
    String :=
  if enableTimestamps then indentPrefix d ++ (ts ++ (" " ++ line))
  else indentPrefix d ++ line

/-- The emission loop of `put`: one logger call per derived line, in
order; each emitted record carries the numeric log level and the
formatted text. -/
def putLoop (d : Int) (ets : Bool) (ts : String) (lv : Int) :
    List String → List (Int × String) → List (Int × String)
  | [], out => out
  | l :: rest, out => putLoop d ets ts lv rest (out ++ [(lv, fmtLine d ets ts l)])

/-- `IndentedOutput.put(msg, logLevel)` (source lines 212-230). -/
def put (d : Int) (ets : Bool) (ts : String) (msg : PutMsg) (lv : Int) :
    List (Int × String) :=
  putLoop d ets ts lv (putLines msg) []

/-! ## The Job lifecycle

`Job.start` / `Job.finish` / `Job.saveConfig` /
`Job.getEmailConfigFromArgsAndConfigFile` over an explicit file-system
map.  Log emission reuses the `put` model (Job loggers have timestamps
disabled: `enableTimestamps = False` in `IndentedOutput.__init__`); the
log file itself lives at a separate per-tool path and is not part of the
modelled file system. -/

def CRITICAL : Int := 50
def ERROR : Int := 40
def WARN : Int := 30
def INFO : Int := 20
def DEBUG : Int := 10

/-- A wall-clock reading (`datetime.today()` / `datetime.now()`). -/
structure DT where
  year : Int
  month : Int
  day : Int
  hour : Int
  minute : Int
  second : Int

/-- `getCurrentDateTimeDict` (source lines 20-27): the dict literal with
exactly the keys year, month, day, hour, minute — the `second` field of
the reading is intentionally dropped — in canonical key-sorted form. -/
def getCurrentDateTimeDict (now : DT) : Dict :=
  [("day", .num now.day), ("hour", .num now.hour), ("minute", .num now.minute),
   ("month", .num now.month), ("year", .num now.year)]

/-- Zero-padding of `%02d`. -/
def d2 (n : Int) : List Char :=
  if 0 ≤ n ∧ n < 10 then '0' :: intRepr n else intRepr n

/-- The `'%d-%02d-%02d %02d:%02d'` format of `dateString`. -/
def dateStringD (y mo da ho mi : Int) : String :=
  String.mk (intRepr y ++ '-' :: (d2 mo ++ '-' :: (d2 da ++ ' ' ::
    (d2 ho ++ ':' :: d2 mi))))

/-- `dateString()` on the current reading. -/
def dateStringNow (now : DT) : String :=
  dateStringD now.year now.month now.day now.hour now.minute

/-- `dateString(dateTimeDict)` on a value loaded from the config file:
`none` models the KeyError/TypeError Python raises when the value is not
a dict of the five integer fields. -/
def jsonDateString : Json → Option String
  | .obj d =>
    match dget d "year", dget d "month", dget d "day",
        dget d "hour", dget d "minute" with
    | some (.num y), some (.num mo), some (.num da),
        some (.num ho), some (.num mi) => some (dateStringD y mo da ho mi)
    | _, _, _, _, _ => none
  | _ => none

/-- Python truthiness of a JSON-shaped value. -/
def truthy : Json → Bool
  | .null => false
  | .bool b => b
  | .num n => n != 0
  | .str s => s != ""
  | .arr l => !l.isEmpty
  | .obj f => !f.isEmpty

def optTruthy : Option Json → Bool
  | none => false
  | some v => truthy v

/-- The file system: path to byte content. -/
structure FS where
  files : List (String × String)

def lookupStr : List (String × String) → String → Option String
  | [], _ => none
  | (p, c) :: rest, q => if p = q then some c else lookupStr rest q

def setStr : List (String × String) → String → String → List (String × String)
  | [], p, c => [(p, c)]
  | (p0, c0) :: rest, p, c =>
    if p0 = p then (p, c) :: rest else (p0, c0) :: setStr rest p c

def FS.read (fs : FS) (p : String) : Option String := lookupStr fs.files p

def FS.write (fs : FS) (p : String) (c : String) : FS := ⟨setStr fs.files p c⟩

/-- A job object's fields (the `self` of `Job`). -/
structure JobState where
  name : String
  quiet : Bool
  readOnly : Bool
  configDir : String
  configFilename : Option String
  config : Dict
  arguments : Dict

inductive StartErr where
  | missingConfig : StartErr
  | parseError : StartErr
  | configNotDict : StartErr
  | lastRunKeyMissing : StartErr
  | lastRunFormat : StartErr

structure StartResult where
  job : JobState
  fs : FS
  depth : Int
  logs : List (Int × String)
  err : Option StartErr

/-- The tail of `Job.start` (source lines 411-415): the first-run /
last-run message. -/
def jobStartTail (job : JobState) (fs : FS) (d : Int)
    (logs : List (Int × String)) : StartResult :=
  if !job.quiet && !job.readOnly then
    match dget job.config "lastRunDateTime" with
    | none => ⟨job, fs, d, logs, some .lastRunKeyMissing⟩
    | some v =>
      if truthy v then
        match jsonDateString v with
        | some s =>
          ⟨job, fs, d,
            logs ++ put d false "" (.str ("Last successful run: " ++ s)) INFO,
            none⟩
        | none => ⟨job, fs, d, logs, some .lastRunFormat⟩
      else
        ⟨job, fs, d,
          logs ++ put d false "" (.str "This appears to be the first run.") INFO,
          none⟩
  else ⟨job, fs, d, logs, none⟩

/-- `Job.start` (source lines 379-415) over the file system `fs`, with
the process-wide `INDENT_SIZE` entering at `d0`.  Argument parsing has
already populated `job.arguments`; the console-verbosity side effect of
`--verbose` is not modelled (no claim observes console filtering). -/
def jobStart (job : JobState) (now : DT) (allowMissingConfigFile : Bool)
    (fs : FS) (d0 : Int) : StartResult :=
  let d1 := if job.quiet then d0 else d0 + 1
  let logs1 : List (Int × String) :=
    if job.quiet then []
    else put d0 false "" (.str (job.name ++ " job started at " ++
      dateStringNow now)) INFO
  let f :=
    match job.configFilename with
    | some f0 => f0
    | none =>
      match dget job.arguments "config_file" with
      | some (.str s) => if s != "" then s else job.configDir ++ "/config.json"
      | _ => job.configDir ++ "/config.json"
  let job1 := { job with configFilename := some f }
  let logs2 := logs1 ++
    (if job.quiet then []
     else put d1 false "" (.str ("Loading config from " ++ f ++ "...")) INFO)
  match fs.read f with
  | none =>
    if !allowMissingConfigFile then ⟨job1, fs, d1, logs2, some .missingConfig⟩
    else
      jobStartTail job1 fs d1 (logs2 ++
        (if job.quiet then []
         else put d1 false ""
           (.str "No config file found. Continuing with default config...") INFO))
  | some content =>
    match loadJson content.data with
    | none =>
      ⟨job1, fs, d1,
        logs2 ++
          (if job.quiet then []
           else put d1 false "" (.str "Config file couldn't be parsed!") INFO ++
             put (d1 + 1) false "" (.str content) ERROR),
        some .parseError⟩
    | some (.obj fields) =>
      jobStartTail { job1 with config := dupdate job1.config fields } fs d1 logs2
    | some _ => ⟨job1, fs, d1, logs2, some .configNotDict⟩

inductive FinishResult where
  | exited (code : Int) : FinishResult
  | saveFailed : FinishResult

structure FinishOut where
  job : JobState
  fs : FS
  depth : Int
  logs : List (Int × String)
  result : FinishResult

/-- `Job.finish(exitCode)` (source lines 417-423) with `Job.saveConfig`
(lines 425-431) inlined: unless read-only, stamp `lastRunDateTime` with
the current reading, pretty-print the whole mapping with sorted keys, and
write it line by line with trailing whitespace stripped; then (unless
quiet) un-indent and emit the exit banner; finally `exit(exitCode)`. -/
def jobFinish (job : JobState) (now : DT) (exitCode : Int) (fs : FS)
    (d0 : Int) : FinishOut :=
  let step1 : (JobState × FS) ⊕ Unit :=
    if job.readOnly then Sum.inl (job, fs)
    else
      match job.configFilename with
      | none => Sum.inr ()
      | some f =>
        let cfg2 := dset job.config "lastRunDateTime"
          (Json.obj (getCurrentDateTimeDict now))
        Sum.inl ({ job with config := cfg2 },
          fs.write f (String.mk (saveLines (dumps (Json.obj cfg2)))))
  match step1 with
  | Sum.inr _ => ⟨job, fs, d0, [], .saveFailed⟩
  | Sum.inl (job2, fs2) =>
    if job2.quiet then ⟨job2, fs2, d0, [], .exited exitCode⟩
    else
      ⟨job2, fs2, unIndentStep d0,
        put (unIndentStep d0) false ""
          (.str (job2.name ++ " job finished at " ++ dateStringNow now)) INFO,
        .exited exitCode⟩

/-- The value of `self.arguments.get(k) or self.config.get(k)`. -/
def pyOrGet (args config : Dict) (k : String) : Option Json :=
  match dget args k with
  | some v => if truthy v then some v else dget config k
  | none => dget config k

def emailFields : List String := ["email_from", "email_to", "email_password"]

/-- The warning text `'Disabling email because no parameter or config value
was given for %s.' % k` (source line 441). -/
def emailWarnLine (k : String) : String :=
  "Disabling email because no parameter or config value was given for " ++ k ++ "."

/-- The body of the for-loop of `getEmailConfigFromArgsAndConfigFile`
(source lines 437-443). -/
def emailFieldStep (args config : Dict) (d : Int)
    (acc : Dict × List (Int × String) × Bool) (k : String) :
    Dict × List (Int × String) × Bool :=
  match pyOrGet args config k with
  | some v =>
    if truthy v then (dset acc.1 k v, acc.2.1, acc.2.2)
    else
      (acc.1, acc.2.1 ++ put d false "" (.str (emailWarnLine k)) WARN, true)
  | none =>
    (acc.1, acc.2.1 ++ put d false "" (.str (emailWarnLine k)) WARN, true)

/-- `Job.getEmailConfigFromArgsAndConfigFile` (source lines 433-454). -/
def getEmailConfigFromArgsAndConfigFile (args config : Dict) (d : Int) :
    Dict × List (Int × String) :=
  let folded := emailFields.foldl (emailFieldStep args config d) ([], [], false)
  let result :=
    if folded.2.2 then dset folded.1 "email_enabled" (.bool false)
    else
      match dget args "email_enabled" with
      | some v => dset folded.1 "email_enabled" v
      | none =>
        dset folded.1 "email_enabled"
          (match dget config "email_enabled" with
           | some v => v
           | none => .bool true)
  (result,
    folded.2.1 ++ put d false ""
      (.str ("using email config: " ++ String.mk (dumps (Json.obj result)))) DEBUG)

/-! ## The constructor chain `Job.__init__` -> `MinimalJob.__init__` -/

/-- Parameters of `MinimalJob.__init__` besides `self` (source line 304),
each with whether it declares a default value: neither does. -/
def minimalJobInitParams : List (String × Bool) := [("name", false), ("logLevel", false)]

/-- The positional arguments `Job.__init__` passes in its first statement
`super(Job, self).__init__(name)` (source line 362). -/
def jobSuperInitArgs : List String := ["name"]

/-- Python positional binding: the call binds iff it supplies no more
arguments than there are parameters and every unsupplied parameter has a
default. -/
def bindsPositional (params : List (String × Bool)) (nArgs : Nat) : Bool :=
  nArgs ≤ params.length && (params.drop nArgs).all (fun p => p.2)

inductive ConstructResult where
  | typeError : ConstructResult
  | constructed : ConstructResult

/-- Constructing `Job(name, ...)`: `Job.__init__` begins with the super
call; when that call fails to bind, `TypeError` propagates before any
instance exists.  The keyword arguments of `Job.__init__` never reach the
super call, so they cannot influence the outcome. -/
def jobConstruct (name : String) (logFilename : Option String)
    (logLevel : Int) (quiet readOnly : Bool) : ConstructResult :=
  if bindsPositional minimalJobInitParams jobSuperInitArgs.length then
    .constructed
  else .typeError

theorem breakNl_some_length (cs : List Char) :
    ∀ l r, breakNl cs = (l, some r) → r.length < cs.length := by
  induction cs with
  | nil => intro l r h; simp [breakNl] at h
  | cons c cs ih =>
    intro l r h
    by_cases hc : c = '\n'
    · simp [breakNl, hc] at h
      simp [h.2]
    · simp [breakNl, hc] at h
      rcases hbreak : breakNl cs with ⟨l0, r0⟩
      rw [hbreak] at h
      rcases h with ⟨h1, h2⟩
      cases r0 with
      | none => simp [h2] at *
      | some r0 =>
        have := ih l0 r0 hbreak
        simp at h2
        subst h2
        simp
        omega

/-! ## Lemmas: characters, whitespace, digit runs -/

theorem charNe_of_toNat {c d : Char} (h : c.toNat ≠ d.toNat) : c ≠ d :=
  fun e => h (by rw [e])

theorem skipWs_cons_of_not (c : Char) (h : isWsC c = false) (cs : List Char) :
    skipWs (c :: cs) = c :: cs := by
  simp [skipWs, h]

theorem skipWs_cons_of_ws (c : Char) (h : isWsC c = true) (cs : List Char) :
    skipWs (c :: cs) = skipWs cs := by
  simp [skipWs, h]

theorem skipWs_append_ws {ws : List Char} (h : ∀ c ∈ ws, isWsC c = true)
    (cs : List Char) : skipWs (ws ++ cs) = skipWs cs := by
  induction ws with
  | nil => simp
  | cons c ws ih =>
    have hc : isWsC c = true := h c (by simp)
    simp [skipWs, hc]
    exact ih (fun d hd => h d (by simp [hd]))

theorem ind4_ws (k : Nat) : ∀ c ∈ ind4 k, isWsC c = true := by
  intro c hc
  have : c = ' ' := List.eq_of_mem_replicate hc
  simp [this, isWsC]

theorem digit_not_ws {c : Char} (h : isDigitC c = true) : isWsC c = false := by
  have hb : 48 ≤ c.toNat ∧ c.toNat ≤ 57 := by simpa [isDigitC] using h
  have h1 : c ≠ ' ' := charNe_of_toNat
    (by have e : (' ' : Char).toNat = 32 := by decide
        rw [e]; omega)
  have h2 : c ≠ '\n' := charNe_of_toNat
    (by have e : ('\n' : Char).toNat = 10 := by decide
        rw [e]; omega)
  have h3 : c ≠ '\t' := charNe_of_toNat
    (by have e : ('\t' : Char).toNat = 9 := by decide
        rw [e]; omega)
  have h4 : c ≠ '\r' := charNe_of_toNat
    (by have e : ('\r' : Char).toNat = 13 := by decide
        rw [e]; omega)
  simp [isWsC, h1, h2, h3, h4]

theorem digit_ne {c : Char} (h : isDigitC c = true) {d : Char}
    (hd : d.toNat < 48 ∨ 57 < d.toNat) : c ≠ d := by
  have hb : 48 ≤ c.toNat ∧ c.toNat ≤ 57 := by simpa [isDigitC] using h
  exact charNe_of_toNat (by omega)

/-! Decimal printing is inverted by the digit-run scanner. -/

theorem parseNatAcc_run : ∀ ds : List Char, (∀ c ∈ ds, isDigitC c = true) →
    ∀ cs : List Char, nonDigitHeadB cs = true →
    ∀ acc, parseNatAcc (ds ++ cs) acc = (digitsVal ds acc, cs) := by
  intro ds
  induction ds with
  | nil =>
    intro _ cs hcs acc
    cases cs with
    | nil => simp [parseNatAcc, digitsVal]
    | cons c cs =>
      have : isDigitC c = false := by simpa [nonDigitHeadB] using hcs
      simp [parseNatAcc, this, digitsVal]
  | cons d ds ih =>
    intro h cs hcs acc
    have hd : isDigitC d = true := h d (by simp)
    simp only [List.cons_append, parseNatAcc, hd, if_pos]
    rw [show ds.append cs = ds ++ cs from rfl,
      ih (fun c hc => h c (by simp [hc])) cs hcs]
    simp [digitsVal]

theorem digitChar_isDigit {n : Nat} (h : n < 10) : isDigitC (digitChar n) = true := by
  interval_cases n <;> decide

theorem digitChar_val {n : Nat} (h : n < 10) : (digitChar n).toNat - 48 = n := by
  interval_cases n <;> decide

theorem natDigits_digits (n : Nat) : ∀ c ∈ natDigits n, isDigitC c = true := by
  induction n using Nat.strong_induction_on with
  | _ n ih =>
    intro c hc
    by_cases h : n < 10
    · rw [natDigits] at hc
      simp [h] at hc
      simp [hc, digitChar_isDigit h]
    · rw [natDigits] at hc
      simp [h] at hc
      rcases hc with hc | hc
      · exact ih (n / 10) (Nat.div_lt_self (by omega) (by omega)) c hc
      · simp [hc, digitChar_isDigit (Nat.mod_lt n (by omega))]

theorem natDigits_ne_nil (n : Nat) : natDigits n ≠ [] := by
  by_cases h : n < 10 <;> rw [natDigits] <;> simp [h]

theorem digitsVal_natDigits (n : Nat) :
    ∀ acc, digitsVal (natDigits n) acc = acc * 10 ^ (natDigits n).length + n := by
  induction n using Nat.strong_induction_on with
  | _ n ih =>
    intro acc
    by_cases h : n < 10
    · rw [natDigits]
      simp [h, digitsVal, digitChar_val h]
    · rw [natDigits]
      simp only [h, dif_neg, not_false_iff]
      rw [digitsVal, List.foldl_append]
      have hlt : n / 10 < n := Nat.div_lt_self (by omega) (by omega)
      have hih := ih (n / 10) hlt acc
      rw [digitsVal] at hih
      simp only [hih, List.foldl_cons, List.foldl_nil, List.length_append,
        List.length_cons, List.length_nil]
      rw [digitChar_val (Nat.mod_lt n (by omega))]
      have hpow : 10 ^ ((natDigits (n / 10)).length + (0 + 1)) =
          10 ^ (natDigits (n / 10)).length * 10 := by
        rw [pow_succ]
      calc (acc * 10 ^ (natDigits (n / 10)).length + n / 10) * 10 + n % 10
          = acc * (10 ^ (natDigits (n / 10)).length * 10) + (n / 10 * 10 + n % 10) := by
            ring
        _ = acc * 10 ^ ((natDigits (n / 10)).length + (0 + 1)) + n := by
            rw [hpow]; congr 1; omega

theorem parseNatAcc_natDigits (n : Nat) {cs : List Char}
    (hcs : nonDigitHeadB cs = true) :
    parseNatAcc (natDigits n ++ cs) 0 = (n, cs) := by
  rw [parseNatAcc_run (natDigits n) (natDigits_digits n) cs hcs 0,
    digitsVal_natDigits n 0]
  simp

/-! ## Lemmas: string literals and keywords -/

theorem expectChars_self (ps : List Char) (cs : List Char) :
    expectChars ps (ps ++ cs) = some cs := by
  induction ps with
  | nil => rfl
  | cons p ps ih => simp [expectChars, ih]

theorem parseStrChars_quote (cs : List Char) :
    parseStrChars ('"' :: cs) = some ([], cs) := by
  rw [parseStrChars.eq_def]
  simp

theorem parseStrChars_plain {c : Char} (h1 : c ≠ '"') (h2 : c ≠ '\\')
    (cs : List Char) :
    parseStrChars (c :: cs) =
      match parseStrChars cs with
      | none => none
      | some (s, rest) => some (c :: s, rest) := by
  rw [parseStrChars.eq_def]
  simp [h1, h2]

theorem parseStrChars_escaped (e u : Char) (hu : unescapeChar e = some u)
    (cs : List Char) :
    parseStrChars ('\\' :: e :: cs) =
      match parseStrChars cs with
      | none => none
      | some (s, rest) => some (u :: s, rest) := by
  rw [parseStrChars.eq_def]
  simp [hu]

theorem parseStrChars_esc (l : List Char) (cs : List Char) :
    parseStrChars (escChars l ++ '"' :: cs) = some (l, cs) := by
  induction l with
  | nil => simp [escChars, parseStrChars_quote]
  | cons c l ih =>
    have hesc : escChars (c :: l) = escapeChar c ++ escChars l := by
      simp [escChars]
    rw [hesc, List.append_assoc]
    by_cases h1 : c = '"'
    · subst h1
      rw [show escapeChar '"' = ['\\', '"'] from rfl]
      rw [show (['\\', '"'] : List Char) ++ (escChars l ++ '"' :: cs) =
        '\\' :: '"' :: (escChars l ++ '"' :: cs) from rfl]
      rw [parseStrChars_escaped '"' '"' (by decide) _, ih]
    · by_cases h2 : c = '\\'
      · subst h2
        rw [show escapeChar '\\' = ['\\', '\\'] from by decide]
        rw [show (['\\', '\\'] : List Char) ++ (escChars l ++ '"' :: cs) =
          '\\' :: '\\' :: (escChars l ++ '"' :: cs) from rfl]
        rw [parseStrChars_escaped '\\' '\\' (by decide) _, ih]
      · by_cases h3 : c = '\n'
        · subst h3
          rw [show escapeChar '\n' = ['\\', 'n'] from by decide]
          rw [show (['\\', 'n'] : List Char) ++ (escChars l ++ '"' :: cs) =
            '\\' :: 'n' :: (escChars l ++ '"' :: cs) from rfl]
          rw [parseStrChars_escaped 'n' '\n' (by decide) _, ih]
        · by_cases h4 : c = '\r'
          · subst h4
            rw [show escapeChar '\r' = ['\\', 'r'] from by decide]
            rw [show (['\\', 'r'] : List Char) ++ (escChars l ++ '"' :: cs) =
              '\\' :: 'r' :: (escChars l ++ '"' :: cs) from rfl]
            rw [parseStrChars_escaped 'r' '\r' (by decide) _, ih]
          · by_cases h5 : c = '\t'
            · subst h5
              rw [show escapeChar '\t' = ['\\', 't'] from by decide]
              rw [show (['\\', 't'] : List Char) ++ (escChars l ++ '"' :: cs) =
                '\\' :: 't' :: (escChars l ++ '"' :: cs) from rfl]
              rw [parseStrChars_escaped 't' '\t' (by decide) _, ih]
            · rw [show escapeChar c = [c] from by
                simp [escapeChar, h1, h2, h3, h4, h5]]
              rw [show ([c] : List Char) ++ (escChars l ++ '"' :: cs) =
                c :: (escChars l ++ '"' :: cs) from rfl]
              rw [parseStrChars_plain h1 h2 _, ih]

/-! ## Lemmas: the parser on printed text -/

theorem strMk_data (s : String) : String.mk s.data = s := by
  cases s
  rfl

theorem pV_head (k : Nat) (j : Json) :
    ∃ c t, pV k j = c :: t ∧ isWsC c = false ∧ c ≠ ']' ∧ c ≠ '}' := by
  cases j with
  | num n =>
    by_cases hn : n < 0
    · refine ⟨'-', natDigits n.natAbs, ?_, by decide⟩
      simp [pV, intRepr, hn]
    · obtain ⟨d, t, hd⟩ := List.exists_cons_of_ne_nil (natDigits_ne_nil n.natAbs)
      have hdig : isDigitC d = true := natDigits_digits n.natAbs d (by rw [hd]; simp)
      refine ⟨d, t, ?_, digit_not_ws hdig, digit_ne hdig (by right; decide),
        digit_ne hdig (by right; decide)⟩
      simp [pV, intRepr, hn, hd]
  | null => exact ⟨'n', _, rfl, by decide⟩
  | bool b => cases b with
    | true => exact ⟨'t', _, rfl, by decide⟩
    | false => exact ⟨'f', _, rfl, by decide⟩
  | str s => exact ⟨'"', _, rfl, by decide⟩
  | arr items => cases items with
    | nil => exact ⟨'[', _, rfl, by decide⟩
    | cons x xs => exact ⟨'[', _, rfl, by decide⟩
  | obj fields => cases fields with
    | nil => exact ⟨'\x7b', _, rfl, by decide⟩
    | cons f fs => exact ⟨'\x7b', _, rfl, by decide⟩

theorem skipWs_pV (k : Nat) (j : Json) (cs : List Char) :
    skipWs (pV k j ++ cs) = pV k j ++ cs := by
  obtain ⟨c, t, h, hws, _, _⟩ := pV_head k j
  rw [h, List.cons_append, skipWs_cons_of_not c hws]

theorem wsNlInd (k : Nat) : ∀ c ∈ ('\n' :: ind4 k), isWsC c = true := by
  intro c hc
  rcases List.mem_cons.mp hc with h | h
  · subst h; decide
  · exact ind4_ws k c h

theorem nonDigit_pItems (k : Nat) (xs : List Json) (z : List Char) :
    nonDigitHeadB (pItems k xs ++ '\n' :: z) = true := by
  cases xs <;> rfl

theorem nonDigit_pFields (k : Nat) (fs : List (String × Json)) (z : List Char) :
    nonDigitHeadB (pFields k fs ++ '\n' :: z) = true := by
  cases fs <;> rfl

theorem parseVal_ws (fuel : Nat) {ws : List Char} (h : ∀ c ∈ ws, isWsC c = true)
    (cs : List Char) : parseVal fuel (ws ++ cs) = parseVal fuel cs := by
  cases fuel with
  | zero => rfl
  | succ g =>
    rw [parseVal.eq_def]
    conv_rhs => rw [parseVal.eq_def]
    simp only [skipWs_append_ws h]

theorem parseFieldP_ws (fuel : Nat) {ws : List Char} (h : ∀ c ∈ ws, isWsC c = true)
    (cs : List Char) : parseFieldP fuel (ws ++ cs) = parseFieldP fuel cs := by
  cases fuel with
  | zero => rfl
  | succ g =>
    rw [parseFieldP.eq_def]
    conv_rhs => rw [parseFieldP.eq_def]
    simp only [skipWs_append_ws h]

theorem parseItemsRest_ws (fuel : Nat) {ws : List Char}
    (h : ∀ c ∈ ws, isWsC c = true) (cs : List Char) :
    parseItemsRest fuel (ws ++ cs) = parseItemsRest fuel cs := by
  cases fuel with
  | zero => rfl
  | succ g =>
    rw [parseItemsRest.eq_def]
    conv_rhs => rw [parseItemsRest.eq_def]
    simp only [skipWs_append_ws h]

theorem parseFieldsRest_ws (fuel : Nat) {ws : List Char}
    (h : ∀ c ∈ ws, isWsC c = true) (cs : List Char) :
    parseFieldsRest fuel (ws ++ cs) = parseFieldsRest fuel cs := by
  cases fuel with
  | zero => rfl
  | succ g =>
    rw [parseFieldsRest.eq_def]
    conv_rhs => rw [parseFieldsRest.eq_def]
    simp only [skipWs_append_ws h]

theorem parseVal_null (g : Nat) (cs : List Char) :
    parseVal (g + 1) ('n' :: 'u' :: 'l' :: 'l' :: cs) = some (.null, cs) := by
  rw [parseVal.eq_def]
  simp [skipWs_cons_of_not 'n' (by decide), expectChars]

theorem parseVal_true (g : Nat) (cs : List Char) :
    parseVal (g + 1) ('t' :: 'r' :: 'u' :: 'e' :: cs) = some (.bool true, cs) := by
  rw [parseVal.eq_def]
  simp [skipWs_cons_of_not 't' (by decide), expectChars]

theorem parseVal_false (g : Nat) (cs : List Char) :
    parseVal (g + 1) ('f' :: 'a' :: 'l' :: 's' :: 'e' :: cs) = some (.bool false, cs) := by
  rw [parseVal.eq_def]
  simp [skipWs_cons_of_not 'f' (by decide), expectChars]

theorem parseVal_str (g : Nat) (s : String) (cs : List Char) :
    parseVal (g + 1) ('"' :: (escChars s.data ++ '"' :: cs)) = some (.str s, cs) := by
  rw [parseVal.eq_def]
  simp [skipWs_cons_of_not '"' (by decide), parseStrChars_esc, strMk_data]

theorem parseVal_num (g : Nat) (n : Int) {cs : List Char}
    (hcs : nonDigitHeadB cs = true) :
    parseVal (g + 1) (intRepr n ++ cs) = some (.num n, cs) := by
  obtain ⟨d, t, hd⟩ := List.exists_cons_of_ne_nil (natDigits_ne_nil n.natAbs)
  have hdig : isDigitC d = true := natDigits_digits n.natAbs d (by rw [hd]; simp)
  have hrun := parseNatAcc_natDigits n.natAbs hcs
  rw [hd, List.cons_append] at hrun
  by_cases hn : n < 0
  · have hint : -((n.natAbs : Nat) : Int) = n := by omega
    rw [show intRepr n = '-' :: natDigits n.natAbs from by simp [intRepr, hn],
      hd, List.cons_append, List.cons_append, parseVal.eq_def]
    simp [skipWs_cons_of_not '-' (by decide), hdig, hrun, hint]
    rw [abs_of_neg hn]
    ring
  · have hint : ((n.natAbs : Nat) : Int) = n := by omega
    have h1 : d ≠ 'n' := digit_ne hdig (by right; decide)
    have h2 : d ≠ 't' := digit_ne hdig (by right; decide)
    have h3 : d ≠ 'f' := digit_ne hdig (by right; decide)
    have h4 : d ≠ '"' := digit_ne hdig (by left; decide)
    have h5 : d ≠ '[' := digit_ne hdig (by right; decide)
    have h6 : d ≠ '{' := digit_ne hdig (by right; decide)
    have h7 : d ≠ '-' := digit_ne hdig (by left; decide)
    rw [show intRepr n = natDigits n.natAbs from by simp [intRepr, hn],
      hd, List.cons_append, parseVal.eq_def]
    simp [skipWs_cons_of_not d (digit_not_ws hdig), h1, h2, h3, h4, h5, h6, h7,
      hdig, hrun, hint]

theorem parseVal_arr_nil (g : Nat) (cs : List Char) :
    parseVal (g + 1) ('[' :: ']' :: cs) = some (.arr [], cs) := by
  rw [parseVal.eq_def]
  simp [skipWs_cons_of_not '[' (by decide), skipWs_cons_of_not ']' (by decide)]

theorem parseVal_obj_nil (g : Nat) (cs : List Char) :
    parseVal (g + 1) ('{' :: '}' :: cs) = some (.obj [], cs) := by
  rw [parseVal.eq_def]
  simp [skipWs_cons_of_not '{' (by decide), skipWs_cons_of_not '}' (by decide)]

theorem parseVal_arr_step (g : Nat) {rest : List Char} {d : Char}
    {rest2 : List Char} (hskip : skipWs rest = d :: rest2) (hd : d ≠ ']')
    {v : Json} {r : List Char} {vs : List Json} {r2 : List Char}
    (h1 : parseVal g (d :: rest2) = some (v, r))
    (h2 : parseItemsRest g r = some (vs, r2)) :
    parseVal (g + 1) ('[' :: rest) = some (.arr (v :: vs), r2) := by
  rw [parseVal.eq_def]
  simp [skipWs_cons_of_not '[' (by decide), hskip, hd, h1, h2]

theorem parseVal_obj_step (g : Nat) {rest : List Char} {d : Char}
    {rest2 : List Char} (hskip : skipWs rest = d :: rest2) (hd : d ≠ '}')
    {f : String × Json} {r : List Char} {fs : List (String × Json)}
    {r2 : List Char}
    (h1 : parseFieldP g (d :: rest2) = some (f, r))
    (h2 : parseFieldsRest g r = some (fs, r2)) :
    parseVal (g + 1) ('{' :: rest) = some (.obj (f :: fs), r2) := by
  rw [parseVal.eq_def]
  simp [skipWs_cons_of_not '{' (by decide), hskip, hd, h1, h2]

theorem parseItemsRest_close (g : Nat) (cs : List Char) :
    parseItemsRest (g + 1) (']' :: cs) = some ([], cs) := by
  rw [parseItemsRest.eq_def]
  simp [skipWs_cons_of_not ']' (by decide)]

theorem parseFieldsRest_close (g : Nat) (cs : List Char) :
    parseFieldsRest (g + 1) ('}' :: cs) = some ([], cs) := by
  rw [parseFieldsRest.eq_def]
  simp [skipWs_cons_of_not '}' (by decide)]

theorem parseItemsRest_comma (g : Nat) {cs : List Char} {v : Json}
    {r : List Char} {vs : List Json} {r2 : List Char}
    (h1 : parseVal g cs = some (v, r))
    (h2 : parseItemsRest g r = some (vs, r2)) :
    parseItemsRest (g + 1) (',' :: cs) = some (v :: vs, r2) := by
  rw [parseItemsRest.eq_def]
  simp [skipWs_cons_of_not ',' (by decide), h1, h2]

theorem parseFieldsRest_comma (g : Nat) {cs : List Char} {f : String × Json}
    {r : List Char} {fs : List (String × Json)} {r2 : List Char}
    (h1 : parseFieldP g cs = some (f, r))
    (h2 : parseFieldsRest g r = some (fs, r2)) :
    parseFieldsRest (g + 1) (',' :: cs) = some (f :: fs, r2) := by
  rw [parseFieldsRest.eq_def]
  simp [skipWs_cons_of_not ',' (by decide), h1, h2]

theorem parseFieldP_step (g : Nat) (key : String) {body rest : List Char}
    {v : Json} (hv : parseVal g body = some (v, rest)) :
    parseFieldP (g + 1) ('"' :: (escChars key.data ++ '"' :: ':' :: ' ' :: body)) =
      some ((key, v), rest) := by
  have hval : parseVal g (' ' :: body) = some (v, rest) := by
    rw [show (' ' :: body) = [' '] ++ body from rfl,
      parseVal_ws g (by intro c hc; simp at hc; simp [hc, isWsC]) body, hv]
  rw [parseFieldP.eq_def]
  simp [skipWs_cons_of_not '"' (by decide), parseStrChars_esc,
    skipWs_cons_of_not ':' (by decide), hval, strMk_data]

/-- The parser inverts the printer: simultaneous strong induction for
values, array element lists, and object field lists. -/
theorem parse_print_all : ∀ n : Nat,
    (∀ j : Json, fuelJ j ≤ n → wfJ j = true → ∀ k fuel : Nat, ∀ cs : List Char,
      fuelJ j ≤ fuel → nonDigitHeadB cs = true →
      parseVal fuel (pV k j ++ cs) = some (j, cs)) ∧
    (∀ xs : List Json, fuelItems xs ≤ n → wfItems xs = true →
      ∀ k fuel : Nat, ∀ cs : List Char, fuelItems xs ≤ fuel →
      parseItemsRest fuel (pItems (k + 1) xs ++ '\n' :: (ind4 k ++ ']' :: cs)) =
        some (xs, cs)) ∧
    (∀ fs : List (String × Json), fuelFields fs ≤ n → wfFields fs = true →
      ∀ k fuel : Nat, ∀ cs : List Char, fuelFields fs ≤ fuel →
      parseFieldsRest fuel (pFields (k + 1) fs ++ '\n' :: (ind4 k ++ '}' :: cs)) =
        some (fs, cs)) := by
  intro n
  induction n using Nat.strong_induction_on with
  | _ n ih =>
    refine ⟨?_, ?_, ?_⟩
    · intro j hjn hwf k fuel cs hfuel hcs
      cases j with
      | null =>
        cases fuel with
        | zero => simp [show fuelJ Json.null = 1 from rfl] at hfuel
        | succ g => exact parseVal_null g cs
      | bool b =>
        cases fuel with
        | zero => cases b <;> simp [show ∀ c, fuelJ (Json.bool c) = 1 from fun _ => rfl] at hfuel
        | succ g => cases b
                    · exact parseVal_false g cs
                    · exact parseVal_true g cs
      | num m =>
        cases fuel with
        | zero => simp [show fuelJ (Json.num m) = 1 from rfl] at hfuel
        | succ g => exact parseVal_num g m hcs
      | str s =>
        cases fuel with
        | zero => simp [show fuelJ (Json.str s) = 1 from rfl] at hfuel
        | succ g =>
          have hshape : pV k (Json.str s) ++ cs = '"' :: (escChars s.data ++ '"' :: cs) := by
            simp [pV]
          rw [hshape]
          exact parseVal_str g s cs
      | arr items =>
        cases items with
        | nil =>
          cases fuel with
          | zero => simp [show fuelJ (Json.arr []) = 2 from rfl] at hfuel
          | succ g => exact parseVal_arr_nil g cs
        | cons x xs =>
          have hfj : fuelJ (Json.arr (x :: xs)) = 1 + (1 + fuelJ x + fuelItems xs) := rfl
          rw [hfj] at hjn hfuel
          cases fuel with
          | zero => omega
          | succ g =>
            have hwf2 : wfJ x = true ∧ wfItems xs = true := by
              have he : wfJ (Json.arr (x :: xs)) = (wfJ x && wfItems xs) := rfl
              rw [he, Bool.and_eq_true] at hwf
              exact hwf
            obtain ⟨c0, t0, hpv, hws0, hne1, _⟩ := pV_head (k + 1) x
            have hshape : pV k (Json.arr (x :: xs)) ++ cs =
                '[' :: ('\n' :: (ind4 (k + 1) ++ (pV (k + 1) x ++
                  (pItems (k + 1) xs ++ '\n' :: (ind4 k ++ ']' :: cs))))) := by
              simp [pV]
            rw [hshape]
            have hskip : skipWs ('\n' :: (ind4 (k + 1) ++ (pV (k + 1) x ++
                (pItems (k + 1) xs ++ '\n' :: (ind4 k ++ ']' :: cs))))) =
                c0 :: (t0 ++ (pItems (k + 1) xs ++ '\n' :: (ind4 k ++ ']' :: cs))) := by
              rw [show ('\n' :: (ind4 (k + 1) ++ (pV (k + 1) x ++
                  (pItems (k + 1) xs ++ '\n' :: (ind4 k ++ ']' :: cs))))) =
                ('\n' :: ind4 (k + 1)) ++ (pV (k + 1) x ++
                  (pItems (k + 1) xs ++ '\n' :: (ind4 k ++ ']' :: cs))) from rfl]
              rw [skipWs_append_ws (wsNlInd (k + 1)), hpv, List.cons_append,
                skipWs_cons_of_not c0 hws0]
            have h1 : parseVal g (c0 :: (t0 ++ (pItems (k + 1) xs ++
                '\n' :: (ind4 k ++ ']' :: cs)))) =
                some (x, pItems (k + 1) xs ++ '\n' :: (ind4 k ++ ']' :: cs)) := by
              rw [← List.cons_append, ← hpv]
              exact (ih (fuelJ x) (by omega)).1 x (le_refl _) hwf2.1 (k + 1) g _
                (by omega) (nonDigit_pItems (k + 1) xs _)
            have h2 : parseItemsRest g (pItems (k + 1) xs ++
                '\n' :: (ind4 k ++ ']' :: cs)) = some (xs, cs) :=
              (ih (fuelItems xs) (by omega)).2.1 xs (le_refl _) hwf2.2 k g cs
                (by omega)
            exact parseVal_arr_step g hskip hne1 h1 h2
      | obj fields =>
        cases fields with
        | nil =>
          cases fuel with
          | zero => simp [show fuelJ (Json.obj []) = 2 from rfl] at hfuel
          | succ g => exact parseVal_obj_nil g cs
        | cons f fs =>
          obtain ⟨key, v⟩ := f
          have hfj : fuelJ (Json.obj ((key, v) :: fs)) =
            1 + (2 + fuelJ v + fuelFields fs) := rfl
          rw [hfj] at hjn hfuel
          cases fuel with
          | zero => omega
          | succ g =>
            have hwf2 : wfJ v = true ∧ wfFields fs = true := by
              have he : wfJ (Json.obj ((key, v) :: fs)) =
                (keysSortedB ((key, v) :: fs) && (wfJ v && wfFields fs)) := rfl
              rw [he, Bool.and_eq_true, Bool.and_eq_true] at hwf
              exact hwf.2
            have hshape : pV k (Json.obj ((key, v) :: fs)) ++ cs =
                '{' :: ('\n' :: (ind4 (k + 1) ++ ('"' :: (escChars key.data ++
                  '"' :: ':' :: ' ' :: (pV (k + 1) v ++ (pFields (k + 1) fs ++
                    '\n' :: (ind4 k ++ '}' :: cs))))))) := by
              simp [pV, pField]
            rw [hshape]
            have hskip : skipWs ('\n' :: (ind4 (k + 1) ++ ('"' :: (escChars key.data ++
                '"' :: ':' :: ' ' :: (pV (k + 1) v ++ (pFields (k + 1) fs ++
                  '\n' :: (ind4 k ++ '}' :: cs))))))) =
                '"' :: (escChars key.data ++ '"' :: ':' :: ' ' :: (pV (k + 1) v ++
                  (pFields (k + 1) fs ++ '\n' :: (ind4 k ++ '}' :: cs)))) := by
              rw [show ('\n' :: (ind4 (k + 1) ++ ('"' :: (escChars key.data ++
                  '"' :: ':' :: ' ' :: (pV (k + 1) v ++ (pFields (k + 1) fs ++
                    '\n' :: (ind4 k ++ '}' :: cs))))))) =
                ('\n' :: ind4 (k + 1)) ++ ('"' :: (escChars key.data ++
                  '"' :: ':' :: ' ' :: (pV (k + 1) v ++ (pFields (k + 1) fs ++
                    '\n' :: (ind4 k ++ '}' :: cs))))) from rfl]
              rw [skipWs_append_ws (wsNlInd (k + 1)),
                skipWs_cons_of_not '"' (by decide)]
            have h1 : parseFieldP g ('"' :: (escChars key.data ++
                '"' :: ':' :: ' ' :: (pV (k + 1) v ++ (pFields (k + 1) fs ++
                  '\n' :: (ind4 k ++ '}' :: cs))))) =
                some ((key, v), pFields (k + 1) fs ++ '\n' :: (ind4 k ++ '}' :: cs)) := by
              cases g with
              | zero => omega
              | succ g2 =>
                exact parseFieldP_step g2 key
                  ((ih (fuelJ v) (by omega)).1 v (le_refl _) hwf2.1 (k + 1) g2 _
                    (by omega) (nonDigit_pFields (k + 1) fs _))
            have h2 : parseFieldsRest g (pFields (k + 1) fs ++
                '\n' :: (ind4 k ++ '}' :: cs)) = some (fs, cs) :=
              (ih (fuelFields fs) (by omega)).2.2 fs (le_refl _) hwf2.2 k g cs
                (by omega)
            exact parseVal_obj_step g hskip (by decide) h1 h2
    · intro xs hxn hwf k fuel cs hfuel
      cases xs with
      | nil =>
        cases fuel with
        | zero => simp [show fuelItems [] = 1 from rfl] at hfuel
        | succ g =>
          have hshape : pItems (k + 1) [] ++ '\n' :: (ind4 k ++ ']' :: cs) =
              ('\n' :: ind4 k) ++ (']' :: cs) := by
            simp [pItems]
          rw [hshape, parseItemsRest_ws (g + 1) (wsNlInd k), parseItemsRest_close]
      | cons x xs =>
        have hfi : fuelItems (x :: xs) = 1 + fuelJ x + fuelItems xs := rfl
        rw [hfi] at hxn hfuel
        cases fuel with
        | zero => omega
        | succ g =>
          have hwf2 : wfJ x = true ∧ wfItems xs = true := by
            have he : wfItems (x :: xs) = (wfJ x && wfItems xs) := rfl
            rw [he, Bool.and_eq_true] at hwf
            exact hwf
          have hshape : pItems (k + 1) (x :: xs) ++ '\n' :: (ind4 k ++ ']' :: cs) =
              ',' :: (('\n' :: ind4 (k + 1)) ++ (pV (k + 1) x ++ (pItems (k + 1) xs ++
                '\n' :: (ind4 k ++ ']' :: cs)))) := by
            simp [pItems]
          rw [hshape]
          have h1 : parseVal g (('\n' :: ind4 (k + 1)) ++ (pV (k + 1) x ++
              (pItems (k + 1) xs ++ '\n' :: (ind4 k ++ ']' :: cs)))) =
              some (x, pItems (k + 1) xs ++ '\n' :: (ind4 k ++ ']' :: cs)) := by
            rw [parseVal_ws g (wsNlInd (k + 1))]
            exact (ih (fuelJ x) (by omega)).1 x (le_refl _) hwf2.1 (k + 1) g _
              (by omega) (nonDigit_pItems (k + 1) xs _)
          have h2 : parseItemsRest g (pItems (k + 1) xs ++
              '\n' :: (ind4 k ++ ']' :: cs)) = some (xs, cs) :=
            (ih (fuelItems xs) (by omega)).2.1 xs (le_refl _) hwf2.2 k g cs
              (by omega)
          exact parseItemsRest_comma g h1 h2
    · intro fs hfn hwf k fuel cs hfuel
      cases fs with
      | nil =>
        cases fuel with
        | zero => simp [show fuelFields [] = 1 from rfl] at hfuel
        | succ g =>
          have hshape : pFields (k + 1) [] ++ '\n' :: (ind4 k ++ '}' :: cs) =
              ('\n' :: ind4 k) ++ ('}' :: cs) := by
            simp [pFields]
          rw [hshape, parseFieldsRest_ws (g + 1) (wsNlInd k), parseFieldsRest_close]
      | cons f fs =>
        obtain ⟨key, v⟩ := f
        have hff : fuelFields ((key, v) :: fs) = 2 + fuelJ v + fuelFields fs := rfl
        rw [hff] at hfn hfuel
        cases fuel with
        | zero => omega
        | succ g =>
          have hwf2 : wfJ v = true ∧ wfFields fs = true := by
            have he : wfFields ((key, v) :: fs) = (wfJ v && wfFields fs) := rfl
            rw [he, Bool.and_eq_true] at hwf
            exact hwf
          have hshape : pFields (k + 1) ((key, v) :: fs) ++ '\n' :: (ind4 k ++ '}' :: cs) =
              ',' :: (('\n' :: ind4 (k + 1)) ++ ('"' :: (escChars key.data ++
                '"' :: ':' :: ' ' :: (pV (k + 1) v ++ (pFields (k + 1) fs ++
                  '\n' :: (ind4 k ++ '}' :: cs)))))) := by
            simp [pFields, pField]
          rw [hshape]
          have h1 : parseFieldP g (('\n' :: ind4 (k + 1)) ++ ('"' :: (escChars key.data ++
              '"' :: ':' :: ' ' :: (pV (k + 1) v ++ (pFields (k + 1) fs ++
                '\n' :: (ind4 k ++ '}' :: cs)))))) =
              some ((key, v), pFields (k + 1) fs ++ '\n' :: (ind4 k ++ '}' :: cs)) := by
            rw [parseFieldP_ws g (wsNlInd (k + 1))]
            cases g with
            | zero => omega
            | succ g2 =>
              exact parseFieldP_step g2 key
                ((ih (fuelJ v) (by omega)).1 v (le_refl _) hwf2.1 (k + 1) g2 _
                  (by omega) (nonDigit_pFields (k + 1) fs _))
          have h2 : parseFieldsRest g (pFields (k + 1) fs ++
              '\n' :: (ind4 k ++ '}' :: cs)) = some (fs, cs) :=
            (ih (fuelFields fs) (by omega)).2.2 fs (le_refl _) hwf2.2 k g cs
              (by omega)
          exact parseFieldsRest_comma g h1 h2

/-! ## Lemmas: enough fuel, and key sorting is the identity on dicts -/

theorem intRepr_ne_nil (n : Int) : intRepr n ≠ [] := by
  by_cases hn : n < 0 <;> simp [intRepr, hn, natDigits_ne_nil]

theorem fuelLen_all : ∀ n : Nat,
    (∀ j : Json, fuelJ j ≤ n → ∀ k, fuelJ j ≤ (pV k j).length) ∧
    (∀ xs : List Json, fuelItems xs ≤ n → ∀ k,
      fuelItems xs ≤ (pItems k xs).length + 1) ∧
    (∀ fs : List (String × Json), fuelFields fs ≤ n → ∀ k,
      fuelFields fs ≤ (pFields k fs).length + 1) := by
  intro n
  induction n using Nat.strong_induction_on with
  | _ n ih =>
    refine ⟨?_, ?_, ?_⟩
    · intro j hjn k
      cases j with
      | null => simp [show fuelJ Json.null = 1 from rfl, pV]
      | bool b => cases b <;> simp [show ∀ c, fuelJ (Json.bool c) = 1 from fun _ => rfl, pV]
      | num m =>
        have h1 : fuelJ (Json.num m) = 1 := rfl
        have h2 : 0 < (pV k (Json.num m)).length :=
          List.length_pos.mpr (intRepr_ne_nil m)
        omega
      | str s =>
        have h1 : fuelJ (Json.str s) = 1 := rfl
        have h2 : pV k (Json.str s) = '"' :: (escChars s.data ++ ['"']) := rfl
        simp [h1, h2]
      | arr items =>
        cases items with
        | nil => simp [show fuelJ (Json.arr []) = 2 from rfl, pV]
        | cons x xs =>
          have hfj : fuelJ (Json.arr (x :: xs)) = 1 + (1 + fuelJ x + fuelItems xs) := rfl
          rw [hfj] at hjn ⊢
          have hx := (ih (fuelJ x) (by omega)).1 x (le_refl _) (k + 1)
          have hxs := (ih (fuelItems xs) (by omega)).2.1 xs (le_refl _) (k + 1)
          have hlen : (pV k (Json.arr (x :: xs))).length =
              2 + ((ind4 (k + 1)).length + ((pV (k + 1) x).length +
                ((pItems (k + 1) xs).length + (1 + ((ind4 k).length + 1))))) := by
            simp [pV]
            omega
          omega
      | obj fields =>
        cases fields with
        | nil => simp [show fuelJ (Json.obj []) = 2 from rfl, pV]
        | cons f fs =>
          obtain ⟨key, v⟩ := f
          have hfj : fuelJ (Json.obj ((key, v) :: fs)) =
            1 + (2 + fuelJ v + fuelFields fs) := rfl
          rw [hfj] at hjn ⊢
          have hv := (ih (fuelJ v) (by omega)).1 v (le_refl _) (k + 1)
          have hfs := (ih (fuelFields fs) (by omega)).2.2 fs (le_refl _) (k + 1)
          have hlen : (pV k (Json.obj ((key, v) :: fs))).length =
              2 + ((ind4 (k + 1)).length + ((1 + ((escChars key.data).length +
                (3 + (pV (k + 1) v).length))) +
                ((pFields (k + 1) fs).length + (1 + ((ind4 k).length + 1))))) := by
            simp [pV, pField]
            omega
          omega
    · intro xs hxn k
      cases xs with
      | nil => simp [show fuelItems [] = 1 from rfl, pItems]
      | cons x xs =>
        have hfi : fuelItems (x :: xs) = 1 + fuelJ x + fuelItems xs := rfl
        rw [hfi] at hxn ⊢
        have hx := (ih (fuelJ x) (by omega)).1 x (le_refl _) k
        have hxs := (ih (fuelItems xs) (by omega)).2.1 xs (le_refl _) k
        have hlen : (pItems k (x :: xs)).length =
            2 + ((ind4 k).length + ((pV k x).length + (pItems k xs).length)) := by
          simp [pItems]
          omega
        omega
    · intro fs hfn k
      cases fs with
      | nil => simp [show fuelFields [] = 1 from rfl, pFields]
      | cons f fs =>
        obtain ⟨key, v⟩ := f
        have hff : fuelFields ((key, v) :: fs) = 2 + fuelJ v + fuelFields fs := rfl
        rw [hff] at hfn ⊢
        have hv := (ih (fuelJ v) (by omega)).1 v (le_refl _) k
        have hfs := (ih (fuelFields fs) (by omega)).2.2 fs (le_refl _) k
        have hlen : (pFields k ((key, v) :: fs)).length =
            2 + ((ind4 k).length + ((1 + ((escChars key.data).length +
              (3 + (pV k v).length))) + (pFields k fs).length)) := by
          simp [pFields, pField]
          omega
        omega

theorem fuelJ_le_len (j : Json) (k : Nat) : fuelJ j ≤ (pV k j).length :=
  (fuelLen_all (fuelJ j)).1 j (le_refl _) k

theorem keysSortedB_tail {f : String × Json} {fs : List (String × Json)}
    (h : keysSortedB (f :: fs) = true) : keysSortedB fs = true := by
  cases fs with
  | nil => rfl
  | cons g gs =>
    obtain ⟨k1, v1⟩ := f
    obtain ⟨k2, v2⟩ := g
    have he : keysSortedB ((k1, v1) :: (k2, v2) :: gs) =
      (strLtB k1 k2 && keysSortedB ((k2, v2) :: gs)) := rfl
    rw [he, Bool.and_eq_true] at h
    exact h.2

theorem sortFields_sorted_id : ∀ fs : List (String × Json),
    keysSortedB fs = true → sortFields fs = fs := by
  intro fs
  induction fs with
  | nil => intro _; rfl
  | cons f fs ih =>
    intro h
    have htail := keysSortedB_tail h
    rw [show sortFields (f :: fs) = insertField f (sortFields fs) from rfl,
      ih htail]
    cases fs with
    | nil => rfl
    | cons g gs =>
      obtain ⟨k1, v1⟩ := f
      obtain ⟨k2, v2⟩ := g
      have he : keysSortedB ((k1, v1) :: (k2, v2) :: gs) =
        (strLtB k1 k2 && keysSortedB ((k2, v2) :: gs)) := rfl
      rw [he, Bool.and_eq_true] at h
      simp [insertField, h.1]

theorem sortDeep_id_all : ∀ n : Nat,
    (∀ j : Json, fuelJ j ≤ n → wfJ j = true → sortKeysDeep j = j) ∧
    (∀ xs : List Json, fuelItems xs ≤ n → wfItems xs = true → sortItems xs = xs) ∧
    (∀ fs : List (String × Json), fuelFields fs ≤ n → wfFields fs = true →
      sortVals fs = fs) := by
  intro n
  induction n using Nat.strong_induction_on with
  | _ n ih =>
    refine ⟨?_, ?_, ?_⟩
    · intro j hjn hwf
      cases j with
      | null => rfl
      | bool b => rfl
      | num m => rfl
      | str s => rfl
      | arr items =>
        cases items with
        | nil => rfl
        | cons x xs =>
          have hfj : fuelJ (Json.arr (x :: xs)) = 1 + (1 + fuelJ x + fuelItems xs) := rfl
          rw [hfj] at hjn
          have hwf2 : wfItems (x :: xs) = true := by
            have he : wfJ (Json.arr (x :: xs)) = wfItems (x :: xs) := rfl
            rw [he] at hwf
            exact hwf
          have := (ih (fuelItems (x :: xs)) (by
            have : fuelItems (x :: xs) = 1 + fuelJ x + fuelItems xs := rfl
            omega)).2.1 (x :: xs) (le_refl _) hwf2
          rw [show sortKeysDeep (Json.arr (x :: xs)) =
            Json.arr (sortItems (x :: xs)) from rfl, this]
      | obj fields =>
        have he : wfJ (Json.obj fields) =
          (keysSortedB fields && wfFields fields) := rfl
        rw [he, Bool.and_eq_true] at hwf
        have hvals : sortVals fields = fields := by
          cases fields with
          | nil => rfl
          | cons f fs =>
            obtain ⟨key, v⟩ := f
            have hfj : fuelJ (Json.obj ((key, v) :: fs)) =
              1 + (2 + fuelJ v + fuelFields fs) := rfl
            rw [hfj] at hjn
            exact (ih (fuelFields ((key, v) :: fs)) (by
              have : fuelFields ((key, v) :: fs) = 2 + fuelJ v + fuelFields fs := rfl
              omega)).2.2 ((key, v) :: fs) (le_refl _) hwf.2
        rw [show sortKeysDeep (Json.obj fields) =
          Json.obj (sortFields (sortVals fields)) from rfl, hvals,
          sortFields_sorted_id fields hwf.1]
    · intro xs hxn hwf
      cases xs with
      | nil => rfl
      | cons x xs =>
        have hfi : fuelItems (x :: xs) = 1 + fuelJ x + fuelItems xs := rfl
        rw [hfi] at hxn
        have hwf2 : wfJ x = true ∧ wfItems xs = true := by
          have he : wfItems (x :: xs) = (wfJ x && wfItems xs) := rfl
          rw [he, Bool.and_eq_true] at hwf
          exact hwf
        have hx := (ih (fuelJ x) (by omega)).1 x (le_refl _) hwf2.1
        have hxs := (ih (fuelItems xs) (by omega)).2.1 xs (le_refl _) hwf2.2
        rw [show sortItems (x :: xs) = sortKeysDeep x :: sortItems xs from rfl,
          hx, hxs]
    · intro fs hfn hwf
      cases fs with
      | nil => rfl
      | cons f fs =>
        obtain ⟨key, v⟩ := f
        have hff : fuelFields ((key, v) :: fs) = 2 + fuelJ v + fuelFields fs := rfl
        rw [hff] at hfn
        have hwf2 : wfJ v = true ∧ wfFields fs = true := by
          have he : wfFields ((key, v) :: fs) = (wfJ v && wfFields fs) := rfl
          rw [he, Bool.and_eq_true] at hwf
          exact hwf
        have hv := (ih (fuelJ v) (by omega)).1 v (le_refl _) hwf2.1
        have hfs := (ih (fuelFields fs) (by omega)).2.2 fs (le_refl _) hwf2.2
        rw [show sortVals ((key, v) :: fs) =
          (key, sortKeysDeep v) :: sortVals fs from rfl, hv, hfs]

theorem sortKeysDeep_id {j : Json} (h : wfJ j = true) : sortKeysDeep j = j :=
  (sortDeep_id_all (fuelJ j)).1 j (le_refl _) h

/-! ## Lemmas: the printed text survives the rstrip-per-line loop

`saveConfig` pushes the dumped text through `splitlines` / `rstrip` /
rejoin; on the printed text this only appends the final newline, because
no printed line carries trailing whitespace.  The no-trailing-whitespace
fact is phrased as a chain condition: no line-whitespace character is ever
immediately followed by a newline, and the text does not end in
whitespace. -/

theorem isWsC_of_isLineWs {c : Char} (h : isLineWs c = true) : isWsC c = true := by
  have h2 : c = ' ' ∨ c = '\t' ∨ c = '\r' := by
    simpa [isLineWs, or_assoc] using h
  rcases h2 with h3 | h3 | h3 <;> simp [isWsC, h3]

theorem isLineWs_false_of_isWsC {c : Char} (h : isWsC c = false) :
    isLineWs c = false := by
  by_contra hc
  rw [isWsC_of_isLineWs (by simpa using hc)] at h
  cases h

theorem ne_nl_of_isWsC {c : Char} (h : isWsC c = false) : c ≠ '\n' := by
  intro he
  subst he
  simp [isWsC] at h

theorem chain_sepR_of_no_nl : ∀ cs : List Char, '\n' ∉ cs → List.Chain' sepR cs := by
  intro cs
  induction cs with
  | nil => intro _; exact List.chain'_nil
  | cons c cs ih =>
    intro h
    rw [List.chain'_cons']
    refine ⟨?_, ih (fun hm => h (by simp [hm]))⟩
    intro y hy
    right
    intro he
    subst he
    have : '\n' ∈ cs := by
      cases cs with
      | nil => simp at hy
      | cons d t =>
        simp at hy
        simp [hy]
    exact h (by simp [this])

theorem no_nl_ind4 (k : Nat) : '\n' ∉ ind4 k := by
  intro h
  have := List.eq_of_mem_replicate h
  cases this

theorem no_nl_escChars (l : List Char) : '\n' ∉ escChars l := by
  induction l with
  | nil => simp [escChars]
  | cons c l ih =>
    rw [show escChars (c :: l) = escapeChar c ++ escChars l from by simp [escChars]]
    intro h
    rcases List.mem_append.mp h with h | h
    · rw [escapeChar] at h
      by_cases h1 : c = '"'
      · simp [h1] at h
      · by_cases h2 : c = '\\'
        · simp [h1, h2] at h
        · by_cases h3 : c = '\n'
          · simp [h1, h2, h3] at h
          · by_cases h4 : c = '\r'
            · simp [h1, h2, h3, h4] at h
            · by_cases h5 : c = '\t'
              · simp [h1, h2, h3, h4, h5] at h
              · simp [h1, h2, h3, h4, h5] at h
                exact h3 h.symm
    · exact ih h

theorem no_nl_natDigits (n : Nat) : '\n' ∉ natDigits n := by
  intro h
  have := natDigits_digits n '\n' h
  simp [isDigitC] at this

theorem no_nl_intRepr (n : Int) : '\n' ∉ intRepr n := by
  rw [intRepr]
  by_cases hn : n < 0
  · simp only [hn, if_pos]
    intro h
    rcases List.mem_cons.mp h with h | h
    · cases h
    · exact no_nl_natDigits n.natAbs h
  · simp only [hn, if_neg, not_false_iff]
    exact no_nl_natDigits n.natAbs

theorem sepR_left {x : Char} (h : isLineWs x = false) (y : Char) : sepR x y :=
  Or.inl h

theorem sepR_right {y : Char} (h : y ≠ '\n') (x : Char) : sepR x y :=
  Or.inr h

theorem pV_ne_nil (k : Nat) (j : Json) : pV k j ≠ [] := by
  obtain ⟨c, t, h, _, _, _⟩ := pV_head k j
  rw [h]
  exact List.cons_ne_nil c t

theorem pV_head_ne_nl (k : Nat) (j : Json) :
    ∀ c, (pV k j).head? = some c → c ≠ '\n' := by
  obtain ⟨c0, t0, h, hws, _, _⟩ := pV_head k j
  intro c hc
  rw [h] at hc
  simp at hc
  subst hc
  exact ne_nl_of_isWsC hws

theorem intRepr_chars {n : Int} {c : Char} (h : c ∈ intRepr n) :
    isDigitC c = true ∨ c = '-' := by
  rw [intRepr] at h
  by_cases hn : n < 0
  · simp only [hn, if_pos] at h
    rcases List.mem_cons.mp h with h | h
    · exact Or.inr h
    · exact Or.inl (natDigits_digits n.natAbs c h)
  · simp only [hn, if_neg, not_false_iff] at h
    exact Or.inl (natDigits_digits n.natAbs c h)

theorem lineOk_of_digit_or_dash {c : Char} (h : isDigitC c = true ∨ c = '-') :
    isLineWs c = false ∧ c ≠ '\n' := by
  rcases h with h | h
  · exact ⟨isLineWs_false_of_isWsC (digit_not_ws h),
      ne_nl_of_isWsC (digit_not_ws h)⟩
  · subst h
    exact ⟨by decide, by decide⟩

theorem pField_clean (k : Nat) (key : String) (v : Json)
    (hch : List.Chain' sepR (pV k v))
    (hlast : ∀ c, (pV k v).getLast? = some c → (isLineWs c = false ∧ c ≠ '\n')) :
    List.Chain' sepR (pField k (key, v)) ∧
    (∀ c, (pField k (key, v)).getLast? = some c →
      (isLineWs c = false ∧ c ≠ '\n')) ∧
    (pField k (key, v)).head? = some '"' := by
  have hshape : pField k (key, v) =
      ('"' :: escChars key.data) ++ (['"', ':', ' '] ++ pV k v) := by
    simp [pField]
  refine ⟨?_, ?_, ?_⟩
  · rw [hshape]
    refine List.Chain'.append ?_ ?_ ?_
    · exact chain_sepR_of_no_nl _ (by
        intro hm
        rcases List.mem_cons.mp hm with h | h
        · cases h
        · exact no_nl_escChars key.data h)
    · refine List.Chain'.append ?_ hch ?_
      · exact chain_sepR_of_no_nl _ (by decide)
      · intro x hx y hy
        exact sepR_right (pV_head_ne_nl k v y hy) x
    · intro x hx y hy
      refine sepR_right ?_ x
      have h2 : ('"' : Char) = y := by simpa using hy
      rw [← h2]
      decide
  · intro c hc
    have hne1 : (['"', ':', ' '] ++ pV k v) ≠ ([] : List Char) := by simp
    rw [hshape, List.getLast?_append_of_ne_nil _ hne1,
      List.getLast?_append_of_ne_nil _ (pV_ne_nil k v)] at hc
    exact hlast c hc
  · rw [hshape]
    rfl

theorem chain_comma_nl : List.Chain' sepR ([',', '\n'] : List Char) := by
  refine List.chain'_cons'.mpr ⟨?_, List.chain'_singleton _⟩
  intro y _
  exact sepR_left (by decide) y

theorem clean_all : ∀ n : Nat,
    (∀ j : Json, fuelJ j ≤ n → ∀ k, List.Chain' sepR (pV k j) ∧
      (∀ c, (pV k j).getLast? = some c → (isLineWs c = false ∧ c ≠ '\n'))) ∧
    (∀ xs : List Json, fuelItems xs ≤ n → ∀ k, List.Chain' sepR (pItems k xs) ∧
      (∀ c, (pItems k xs).getLast? = some c → (isLineWs c = false ∧ c ≠ '\n'))) ∧
    (∀ fs : List (String × Json), fuelFields fs ≤ n → ∀ k,
      List.Chain' sepR (pFields k fs) ∧
      (∀ c, (pFields k fs).getLast? = some c →
        (isLineWs c = false ∧ c ≠ '\n'))) := by
  intro n
  induction n using Nat.strong_induction_on with
  | _ n ih =>
    refine ⟨?_, ?_, ?_⟩
    · intro j hjn k
      cases j with
      | null =>
        refine ⟨chain_sepR_of_no_nl _ (by
          rw [show pV k Json.null = (['n', 'u', 'l', 'l'] : List Char) from rfl]
          decide), ?_⟩
        intro c hc
        have e : (pV k Json.null).getLast? = some 'l' := rfl
        rw [e] at hc
        rw [← Option.some.inj hc]
        exact ⟨by decide, by decide⟩
      | bool b =>
        cases b with
        | false =>
          refine ⟨chain_sepR_of_no_nl _ (by
            rw [show pV k (Json.bool false) =
              (['f', 'a', 'l', 's', 'e'] : List Char) from rfl]
            decide), ?_⟩
          intro c hc
          have e : (pV k (Json.bool false)).getLast? = some 'e' := rfl
          rw [e] at hc
          rw [← Option.some.inj hc]
          exact ⟨by decide, by decide⟩
        | true =>
          refine ⟨chain_sepR_of_no_nl _ (by
            rw [show pV k (Json.bool true) =
              (['t', 'r', 'u', 'e'] : List Char) from rfl]
            decide), ?_⟩
          intro c hc
          have e : (pV k (Json.bool true)).getLast? = some 'e' := rfl
          rw [e] at hc
          rw [← Option.some.inj hc]
          exact ⟨by decide, by decide⟩
      | num m =>
        refine ⟨chain_sepR_of_no_nl _ (no_nl_intRepr m), ?_⟩
        intro c hc
        have hc2 : (intRepr m).getLast? = some c := hc
        have hmem : c ∈ intRepr m :=
          List.mem_of_mem_getLast? (by simp [Option.mem_def, hc2])
        exact lineOk_of_digit_or_dash (intRepr_chars hmem)
      | str s =>
        have hshape : pV k (Json.str s) = ('"' :: escChars s.data) ++ ['"'] := by
          simp [pV]
        refine ⟨?_, ?_⟩
        · rw [hshape]
          refine List.Chain'.append ?_ (List.chain'_singleton _) ?_
          · exact chain_sepR_of_no_nl _ (by
              intro hm
              rcases List.mem_cons.mp hm with h | h
              · cases h
              · exact no_nl_escChars s.data h)
          · intro x hx y hy
            refine sepR_right ?_ x
            have h2 : ('"' : Char) = y := by simpa using hy
            rw [← h2]
            decide
        · intro c hc
          rw [hshape, List.getLast?_append_of_ne_nil _ (by simp)] at hc
          have e : (['"'] : List Char).getLast? = some '"' := rfl
          rw [e] at hc
          rw [← Option.some.inj hc]
          exact ⟨by decide, by decide⟩
      | arr items =>
        cases items with
        | nil =>
          refine ⟨chain_sepR_of_no_nl _ (by
            rw [show pV k (Json.arr []) = (['[', ']'] : List Char) from rfl]
            decide), ?_⟩
          intro c hc
          have e : (pV k (Json.arr [])).getLast? = some ']' := rfl
          rw [e] at hc
          rw [← Option.some.inj hc]
          exact ⟨by decide, by decide⟩
        | cons x xs =>
          have hfj : fuelJ (Json.arr (x :: xs)) = 1 + (1 + fuelJ x + fuelItems xs) := rfl
          rw [hfj] at hjn
          have hx := (ih (fuelJ x) (by omega)).1 x (le_refl _) (k + 1)
          have hxs := (ih (fuelItems xs) (by omega)).2.1 xs (le_refl _) (k + 1)
          have hne : pV (k + 1) x ++ pItems (k + 1) xs ≠ [] := by
            intro h
            exact pV_ne_nil (k + 1) x (List.append_eq_nil.mp h).1
          have hlastPXPI : ∀ c, (pV (k + 1) x ++ pItems (k + 1) xs).getLast? = some c →
              (isLineWs c = false ∧ c ≠ '\n') := by
            intro c hc
            cases xs with
            | nil =>
              rw [show pItems (k + 1) ([] : List Json) = [] from rfl,
                List.append_nil] at hc
              exact hx.2 c hc
            | cons y ys =>
              rw [List.getLast?_append_of_ne_nil _ (by
                rw [show pItems (k + 1) (y :: ys) = ',' :: '\n' ::
                  (ind4 (k + 1) ++ pV (k + 1) y ++ pItems (k + 1) ys) from rfl]
                exact List.cons_ne_nil _ _)] at hc
              exact hxs.2 c hc
          have hchainPXPI : List.Chain' sepR (pV (k + 1) x ++ pItems (k + 1) xs) := by
            refine List.Chain'.append hx.1 hxs.1 ?_
            intro a ha y hy
            exact sepR_left (hx.2 a (by simpa [Option.mem_def] using ha)).1 y
          have hshape : pV k (Json.arr (x :: xs)) =
              ('[' :: '\n' :: (ind4 (k + 1) ++ (pV (k + 1) x ++ pItems (k + 1) xs)))
                ++ ('\n' :: (ind4 k ++ [']'])) := by
            simp [pV]
          refine ⟨?_, ?_⟩
          · rw [hshape]
            refine List.Chain'.append ?_ ?_ ?_
            · refine List.chain'_cons'.mpr ⟨fun y _ => sepR_left (by decide) y, ?_⟩
              refine List.chain'_cons'.mpr ⟨fun y _ => sepR_left (by decide) y, ?_⟩
              refine List.Chain'.append (chain_sepR_of_no_nl _ (no_nl_ind4 (k + 1)))
                hchainPXPI ?_
              intro a _ y hy
              rw [List.head?_append_of_ne_nil _ (pV_ne_nil (k + 1) x)] at hy
              exact sepR_right (pV_head_ne_nl (k + 1) x y hy) a
            · refine List.chain'_cons'.mpr ⟨fun y _ => sepR_left (by decide) y, ?_⟩
              refine List.Chain'.append (chain_sepR_of_no_nl _ (no_nl_ind4 k))
                (List.chain'_singleton _) ?_
              intro a _ y hy
              refine sepR_right ?_ a
              have h2 : (']' : Char) = y := by simpa using hy
              rw [← h2]
              decide
            · intro a ha y _
              refine sepR_left ?_ y
              rw [show ('[' :: '\n' :: (ind4 (k + 1) ++
                  (pV (k + 1) x ++ pItems (k + 1) xs))).getLast? =
                (ind4 (k + 1) ++ (pV (k + 1) x ++ pItems (k + 1) xs)).getLast? from by
                  rw [show ('[' :: '\n' :: (ind4 (k + 1) ++
                      (pV (k + 1) x ++ pItems (k + 1) xs))) =
                    ['[', '\n'] ++ (ind4 (k + 1) ++
                      (pV (k + 1) x ++ pItems (k + 1) xs)) from rfl]
                  exact List.getLast?_append_of_ne_nil _ (by
                    intro h
                    exact hne (List.append_eq_nil.mp h).2),
                List.getLast?_append_of_ne_nil _ hne] at ha
              exact (hlastPXPI a (by simpa [Option.mem_def] using ha)).1
          · intro c hc
            rw [hshape, List.getLast?_append_of_ne_nil _ (List.cons_ne_nil _ _)] at hc
            rw [show ('\n' :: (ind4 k ++ [']'])).getLast? =
                (ind4 k ++ [']']).getLast? from by
              rw [show ('\n' :: (ind4 k ++ [']'])) =
                ['\n'] ++ (ind4 k ++ [']']) from rfl]
              exact List.getLast?_append_of_ne_nil _ (by simp),
              List.getLast?_append_of_ne_nil _ (by simp)] at hc
            have e : (([']'] : List Char)).getLast? = some ']' := rfl
            rw [e] at hc
            rw [← Option.some.inj hc]
            exact ⟨by decide, by decide⟩
      | obj fields =>
        cases fields with
        | nil =>
          refine ⟨chain_sepR_of_no_nl _ (by
            rw [show pV k (Json.obj []) = (['{', '}'] : List Char) from rfl]
            decide), ?_⟩
          intro c hc
          have e : (pV k (Json.obj [])).getLast? = some '}' := rfl
          rw [e] at hc
          rw [← Option.some.inj hc]
          exact ⟨by decide, by decide⟩
        | cons f fs =>
          obtain ⟨key, v⟩ := f
          have hfj : fuelJ (Json.obj ((key, v) :: fs)) =
            1 + (2 + fuelJ v + fuelFields fs) := rfl
          rw [hfj] at hjn
          have hv := (ih (fuelJ v) (by omega)).1 v (le_refl _) (k + 1)
          have hfs := (ih (fuelFields fs) (by omega)).2.2 fs (le_refl _) (k + 1)
          obtain ⟨hfch, hflast, hfhead⟩ := pField_clean (k + 1) key v hv.1 hv.2
          have hpfne : pField (k + 1) (key, v) ≠ [] := by
            intro h
            rw [h] at hfhead
            cases hfhead
          have hne : pField (k + 1) (key, v) ++ pFields (k + 1) fs ≠ [] := by
            intro h
            exact hpfne (List.append_eq_nil.mp h).1
          have hlastPXPI : ∀ c,
              (pField (k + 1) (key, v) ++ pFields (k + 1) fs).getLast? = some c →
              (isLineWs c = false ∧ c ≠ '\n') := by
            intro c hc
            cases fs with
            | nil =>
              rw [show pFields (k + 1) ([] : List (String × Json)) = [] from rfl,
                List.append_nil] at hc
              exact hflast c hc
            | cons g gs =>
              rw [List.getLast?_append_of_ne_nil _ (by
                rw [show pFields (k + 1) (g :: gs) = ',' :: '\n' ::
                  (ind4 (k + 1) ++ pField (k + 1) g ++ pFields (k + 1) gs) from rfl]
                exact List.cons_ne_nil _ _)] at hc
              exact hfs.2 c hc
          have hchainPXPI : List.Chain' sepR
              (pField (k + 1) (key, v) ++ pFields (k + 1) fs) := by
            refine List.Chain'.append hfch hfs.1 ?_
            intro a ha y _
            exact sepR_left (hflast a (by simpa [Option.mem_def] using ha)).1 y
          have hshape : pV k (Json.obj ((key, v) :: fs)) =
              ('{' :: '\n' :: (ind4 (k + 1) ++
                (pField (k + 1) (key, v) ++ pFields (k + 1) fs)))
                ++ ('\n' :: (ind4 k ++ ['}'])) := by
            simp [pV]
          refine ⟨?_, ?_⟩
          · rw [hshape]
            refine List.Chain'.append ?_ ?_ ?_
            · refine List.chain'_cons'.mpr ⟨fun y _ => sepR_left (by decide) y, ?_⟩
              refine List.chain'_cons'.mpr ⟨fun y _ => sepR_left (by decide) y, ?_⟩
              refine List.Chain'.append (chain_sepR_of_no_nl _ (no_nl_ind4 (k + 1)))
                hchainPXPI ?_
              intro a _ y hy
              rw [List.head?_append_of_ne_nil _ hpfne, hfhead] at hy
              have h2 : ('"' : Char) = y := by simpa using hy
              refine sepR_right ?_ a
              rw [← h2]
              decide
            · refine List.chain'_cons'.mpr ⟨fun y _ => sepR_left (by decide) y, ?_⟩
              refine List.Chain'.append (chain_sepR_of_no_nl _ (no_nl_ind4 k))
                (List.chain'_singleton _) ?_
              intro a _ y hy
              refine sepR_right ?_ a
              have h2 : ('}' : Char) = y := by simpa using hy
              rw [← h2]
              decide
            · intro a ha y _
              refine sepR_left ?_ y
              rw [show ('{' :: '\n' :: (ind4 (k + 1) ++
                  (pField (k + 1) (key, v) ++ pFields (k + 1) fs))).getLast? =
                (ind4 (k + 1) ++
                  (pField (k + 1) (key, v) ++ pFields (k + 1) fs)).getLast? from by
                  rw [show ('{' :: '\n' :: (ind4 (k + 1) ++
                      (pField (k + 1) (key, v) ++ pFields (k + 1) fs))) =
                    ['{', '\n'] ++ (ind4 (k + 1) ++
                      (pField (k + 1) (key, v) ++ pFields (k + 1) fs)) from rfl]
                  exact List.getLast?_append_of_ne_nil _ (by
                    intro h
                    exact hne (List.append_eq_nil.mp h).2),
                List.getLast?_append_of_ne_nil _ hne] at ha
              exact (hlastPXPI a (by simpa [Option.mem_def] using ha)).1
          · intro c hc
            rw [hshape, List.getLast?_append_of_ne_nil _ (List.cons_ne_nil _ _)] at hc
            rw [show ('\n' :: (ind4 k ++ ['}'])).getLast? =
                (ind4 k ++ ['}']).getLast? from by
              rw [show ('\n' :: (ind4 k ++ ['}'])) =
                ['\n'] ++ (ind4 k ++ ['}']) from rfl]
              exact List.getLast?_append_of_ne_nil _ (by simp),
              List.getLast?_append_of_ne_nil _ (by simp)] at hc
            have e : ((['}'] : List Char)).getLast? = some '}' := rfl
            rw [e] at hc
            rw [← Option.some.inj hc]
            exact ⟨by decide, by decide⟩
    · intro xs hxn k
      cases xs with
      | nil =>
        refine ⟨List.chain'_nil, ?_⟩
        intro c hc
        simp [pItems] at hc
      | cons x xs =>
        have hfi : fuelItems (x :: xs) = 1 + fuelJ x + fuelItems xs := rfl
        rw [hfi] at hxn
        have hx := (ih (fuelJ x) (by omega)).1 x (le_refl _) k
        have hxs := (ih (fuelItems xs) (by omega)).2.1 xs (le_refl _) k
        have hne : pV k x ++ pItems k xs ≠ [] := by
          intro h
          exact pV_ne_nil k x (List.append_eq_nil.mp h).1
        have hlastPXPI : ∀ c, (pV k x ++ pItems k xs).getLast? = some c →
            (isLineWs c = false ∧ c ≠ '\n') := by
          intro c hc
          cases xs with
          | nil =>
            rw [show pItems k ([] : List Json) = [] from rfl, List.append_nil] at hc
            exact hx.2 c hc
          | cons y ys =>
            rw [List.getLast?_append_of_ne_nil _ (by
              rw [show pItems k (y :: ys) = ',' :: '\n' ::
                (ind4 k ++ pV k y ++ pItems k ys) from rfl]
              exact List.cons_ne_nil _ _)] at hc
            exact hxs.2 c hc
        have hshape : pItems k (x :: xs) =
            ([',', '\n'] : List Char) ++ (ind4 k ++ (pV k x ++ pItems k xs)) := by
          simp [pItems]
        refine ⟨?_, ?_⟩
        · rw [hshape]
          refine List.Chain'.append chain_comma_nl ?_ ?_
          · refine List.Chain'.append (chain_sepR_of_no_nl _ (no_nl_ind4 k)) ?_ ?_
            · refine List.Chain'.append hx.1 hxs.1 ?_
              intro a ha y _
              exact sepR_left (hx.2 a (by simpa [Option.mem_def] using ha)).1 y
            · intro a _ y hy
              rw [List.head?_append_of_ne_nil _ (pV_ne_nil k x)] at hy
              exact sepR_right (pV_head_ne_nl k x y hy) a
          · intro a ha y _
            have h2 : ('\n' : Char) = a := by simpa using ha
            refine sepR_left ?_ y
            rw [← h2]
            decide
        · intro c hc
          rw [hshape, List.getLast?_append_of_ne_nil _ (by
              intro h
              exact hne (List.append_eq_nil.mp h).2),
            List.getLast?_append_of_ne_nil _ hne] at hc
          exact hlastPXPI c hc
    · intro fs hfn k
      cases fs with
      | nil =>
        refine ⟨List.chain'_nil, ?_⟩
        intro c hc
        simp [pFields] at hc
      | cons f fs =>
        obtain ⟨key, v⟩ := f
        have hff : fuelFields ((key, v) :: fs) = 2 + fuelJ v + fuelFields fs := rfl
        rw [hff] at hfn
        have hv := (ih (fuelJ v) (by omega)).1 v (le_refl _) k
        have hfs := (ih (fuelFields fs) (by omega)).2.2 fs (le_refl _) k
        obtain ⟨hfch, hflast, hfhead⟩ := pField_clean k key v hv.1 hv.2
        have hpfne : pField k (key, v) ≠ [] := by
          intro h
          rw [h] at hfhead
          cases hfhead
        have hne : pField k (key, v) ++ pFields k fs ≠ [] := by
          intro h
          exact hpfne (List.append_eq_nil.mp h).1
        have hlastPXPI : ∀ c, (pField k (key, v) ++ pFields k fs).getLast? = some c →
            (isLineWs c = false ∧ c ≠ '\n') := by
          intro c hc
          cases fs with
          | nil =>
            rw [show pFields k ([] : List (String × Json)) = [] from rfl,
              List.append_nil] at hc
            exact hflast c hc
          | cons g gs =>
            rw [List.getLast?_append_of_ne_nil _ (by
              rw [show pFields k (g :: gs) = ',' :: '\n' ::
                (ind4 k ++ pField k g ++ pFields k gs) from rfl]
              exact List.cons_ne_nil _ _)] at hc
            exact hfs.2 c hc
        have hshape : pFields k ((key, v) :: fs) =
            ([',', '\n'] : List Char) ++ (ind4 k ++ (pField k (key, v) ++ pFields k fs)) := by
          simp [pFields]
        refine ⟨?_, ?_⟩
        · rw [hshape]
          refine List.Chain'.append chain_comma_nl ?_ ?_
          · refine List.Chain'.append (chain_sepR_of_no_nl _ (no_nl_ind4 k)) ?_ ?_
            · refine List.Chain'.append hfch hfs.1 ?_
              intro a ha y _
              exact sepR_left (hflast a (by simpa [Option.mem_def] using ha)).1 y
            · intro a _ y hy
              rw [List.head?_append_of_ne_nil _ hpfne, hfhead] at hy
              have h2 : ('"' : Char) = y := by simpa using hy
              refine sepR_right ?_ a
              rw [← h2]
              decide
          · intro a ha y _
            have h2 : ('\n' : Char) = a := by simpa using ha
            refine sepR_left ?_ y
            rw [← h2]
            decide
        · intro c hc
          rw [hshape, List.getLast?_append_of_ne_nil _ (by
              intro h
              exact hne (List.append_eq_nil.mp h).2),
            List.getLast?_append_of_ne_nil _ hne] at hc
          exact hlastPXPI c hc

theorem breakNl_none_eq : ∀ {cs l : List Char}, breakNl cs = (l, none) → cs = l := by
  intro cs
  induction cs with
  | nil =>
    intro l h
    have e : breakNl [] = (([] : List Char), (none : Option (List Char))) := rfl
    rw [e] at h
    exact congrArg Prod.fst h
  | cons c cs ih =>
    intro l h
    by_cases hc : c = '\n'
    · subst hc
      have e : breakNl ('\n' :: cs) = ([], some cs) := rfl
      rw [e] at h
      injection h with _ h2
      simp at h2
    · rcases hb : breakNl cs with ⟨l0, r0⟩
      have e : breakNl (c :: cs) = (c :: l0, r0) := by
        simp [breakNl, hc, hb]
      rw [e] at h
      cases r0 with
      | none =>
        injection h with h1 _
        rw [← h1, ih hb]
      | some r0 =>
        injection h with _ h2
        simp at h2

theorem breakNl_some_eq : ∀ {cs l r : List Char}, breakNl cs = (l, some r) →
    cs = l ++ '\n' :: r := by
  intro cs
  induction cs with
  | nil =>
    intro l r h
    have e : breakNl [] = (([] : List Char), (none : Option (List Char))) := rfl
    rw [e] at h
    injection h with _ h2
    simp at h2
  | cons c cs ih =>
    intro l r h
    by_cases hc : c = '\n'
    · subst hc
      have e : breakNl ('\n' :: cs) = ([], some cs) := rfl
      rw [e] at h
      injection h with h1 h2
      injection h2 with h3
      rw [← h1, ← h3]
      rfl
    · rcases hb : breakNl cs with ⟨l0, r0⟩
      have e : breakNl (c :: cs) = (c :: l0, r0) := by
        simp [breakNl, hc, hb]
      rw [e] at h
      cases r0 with
      | none =>
        injection h with _ h2
        simp at h2
      | some r0 =>
        injection h with h1 h2
        injection h2 with h3
        rw [← h1, ← h3, ih hb]
        rfl

theorem splitlinesCh_of_none {cs l : List Char} (hne : cs ≠ [])
    (h : breakNl cs = (l, none)) : splitlinesCh cs = [l] := by
  rw [splitlinesCh.eq_def, dif_neg hne]
  split
  next l2 heq =>
    rw [h] at heq
    injection heq with h1 _
    rw [h1]
  next l2 r2 heq =>
    rw [h] at heq
    injection heq with _ h2
    simp at h2

theorem splitlinesCh_of_some {cs l r : List Char} (hne : cs ≠ [])
    (h : breakNl cs = (l, some r)) : splitlinesCh cs = l :: splitlinesCh r := by
  rw [splitlinesCh.eq_def, dif_neg hne]
  split
  next l2 heq =>
    rw [h] at heq
    injection heq with _ h2
    simp at h2
  next l2 r2 heq =>
    rw [h] at heq
    injection heq with h1 h2
    injection h2 with h3
    rw [h1, h3]

theorem rstripCh_of_getLast {cs : List Char} {c : Char} (h : cs.getLast? = some c)
    (hws : isLineWs c = false) : rstripCh cs = cs := by
  have hrev : cs.reverse.head? = some c := by rw [List.head?_reverse, h]
  cases hr : cs.reverse with
  | nil => rw [hr] at hrev; cases hrev
  | cons d t =>
    rw [hr] at hrev
    have hd : d = c := by simpa using hrev
    subst hd
    rw [rstripCh, hr]
    rw [List.dropWhile_cons]
    simp only [hws, Bool.false_eq_true, if_neg, not_false_iff]
    rw [← hr, List.reverse_reverse]

theorem saveLines_clean : ∀ m : Nat, ∀ cs : List Char, cs.length ≤ m → cs ≠ [] →
    (∀ c, cs.getLast? = some c → (isLineWs c = false ∧ c ≠ '\n')) →
    List.Chain' sepR cs → saveLines cs = cs ++ ['\n'] := by
  intro m
  induction m using Nat.strong_induction_on with
  | _ m ih =>
    intro cs hlen hne hlast hchain
    rcases hb : breakNl cs with ⟨l, r0⟩
    cases r0 with
    | none =>
      have hcs : cs = l := breakNl_none_eq hb
      subst hcs
      rw [saveLines, splitlinesCh_of_none hne hb]
      cases hl : cs.getLast? with
      | none =>
        exact absurd (List.getLast?_eq_none_iff.mp hl) hne
      | some c =>
        rw [List.map_cons, List.map_nil, List.flatten_cons, List.flatten_nil,
          List.append_nil, rstripCh_of_getLast hl (hlast c hl).1]
    | some r =>
      have hcs : cs = l ++ '\n' :: r := breakNl_some_eq hb
      cases hr : r with
      | nil =>
        subst hr
        have hlast2 : cs.getLast? = some '\n' := by
          rw [hcs, List.getLast?_append_of_ne_nil _ (List.cons_ne_nil _ _)]
          rfl
        exact absurd rfl (hlast '\n' hlast2).2
      | cons rc rt =>
        have hrne : r ≠ [] := by rw [hr]; exact List.cons_ne_nil _ _
        rw [saveLines, splitlinesCh_of_some hne hb, List.map_cons,
          List.flatten_cons]
        have hsl : ((splitlinesCh r).map (fun l => rstripCh l ++ ['\n'])).flatten =
            saveLines r := rfl
        rw [hsl]
        have hlenr : r.length < cs.length := by
          rw [hcs]
          simp
          omega
        have hlastr : ∀ c, r.getLast? = some c → (isLineWs c = false ∧ c ≠ '\n') := by
          intro c hc
          refine hlast c ?_
          rw [hcs, List.getLast?_append_of_ne_nil _ (List.cons_ne_nil _ _),
            show ('\n' :: r) = ['\n'] ++ r from rfl,
            List.getLast?_append_of_ne_nil _ hrne]
          exact hc
        have hchainr : List.Chain' sepR r := by
          rw [hcs] at hchain
          exact (List.Chain'.right_of_append hchain).tail
        have hihr : saveLines r = r ++ ['\n'] :=
          ih r.length (by omega) r (le_refl _) hrne hlastr hchainr
        rw [hihr]
        have hstrip : rstripCh l = l := by
          cases hl0 : l with
          | nil => rfl
          | cons c0 t0 =>
            have hlne : l ≠ [] := by rw [hl0]; exact List.cons_ne_nil _ _
            rw [← hl0]
            cases hgl : l.getLast? with
            | none => exact absurd (List.getLast?_eq_none_iff.mp hgl) hlne
            | some c =>
              refine rstripCh_of_getLast hgl ?_
              rw [hcs] at hchain
              have hbnd := (List.chain'_append.mp hchain).2.2 c
                (by simp [Option.mem_def, hgl]) '\n' (by simp)
              rcases hbnd with hbnd | hbnd
              · exact hbnd
              · exact absurd rfl hbnd
        rw [hstrip, hcs]
        simp

theorem saveLines_pV (j : Json) : saveLines (pV 0 j) = pV 0 j ++ ['\n'] := by
  have hc := (clean_all (fuelJ j)).1 j (le_refl _) 0
  exact saveLines_clean (pV 0 j).length (pV 0 j) (le_refl _) (pV_ne_nil 0 j)
    hc.2 hc.1

/-- Reloading the saved text: `json.load` inverts `dumps` composed with the
rstrip-per-line loop, for every canonically represented (dict-shaped)
value. -/
theorem loadJson_save_dumps {j : Json} (h : wfJ j = true) :
    loadJson (saveLines (dumps j)) = some j := by
  rw [dumps, sortKeysDeep_id h, saveLines_pV, loadJson]
  have hfuel : fuelJ j ≤ (pV 0 j ++ ['\n']).length + 1 := by
    have := fuelJ_le_len j 0
    simp
    omega
  rw [(parse_print_all (fuelJ j)).1 j (le_refl _) h 0 _ ['\n'] hfuel (by decide)]
  rfl

/-! ## Lemmas: the canonical dict representation -/

theorem listCharLt_irrefl : ∀ l : List Char, listCharLt l l = false := by
  intro l
  induction l with
  | nil => rfl
  | cons c l ih => simp [listCharLt, ih]

theorem strLtB_irrefl (s : String) : strLtB s s = false :=
  listCharLt_irrefl s.data

theorem listCharLt_trans : ∀ a b c : List Char, listCharLt a b = true →
    listCharLt b c = true → listCharLt a c = true := by
  intro a
  induction a with
  | nil =>
    intro b c hab hbc
    cases b with
    | nil => cases hab
    | cons bh bt =>
      cases c with
      | nil => cases hbc
      | cons ch ct => rfl
  | cons ah at' ih =>
    intro b c hab hbc
    cases b with
    | nil => cases hab
    | cons bh bt =>
      cases c with
      | nil => cases hbc
      | cons ch ct =>
        rw [listCharLt] at hab hbc ⊢
        by_cases h1 : ah.toNat < bh.toNat
        · by_cases h2 : bh.toNat < ch.toNat
          · simp [show ah.toNat < ch.toNat from by omega]
          · rw [if_neg h2] at hbc
            by_cases h3 : bh.toNat = ch.toNat
            · simp [show ah.toNat < ch.toNat from by omega]
            · simp [h3] at hbc
        · rw [if_neg h1] at hab
          by_cases h3 : ah.toNat = bh.toNat
          · rw [if_pos h3] at hab
            by_cases h2 : bh.toNat < ch.toNat
            · simp [show ah.toNat < ch.toNat from by omega]
            · rw [if_neg h2] at hbc
              by_cases h4 : bh.toNat = ch.toNat
              · rw [if_pos h4] at hbc
                rw [if_neg (by omega : ¬ah.toNat < ch.toNat),
                  if_pos (by omega : ah.toNat = ch.toNat)]
                exact ih bt ct hab hbc
              · simp [h4] at hbc
          · simp [h3] at hab

theorem strLtB_trans {a b c : String} (h1 : strLtB a b = true)
    (h2 : strLtB b c = true) : strLtB a c = true :=
  listCharLt_trans a.data b.data c.data h1 h2

theorem charEq_of_toNat {c d : Char} (h : c.toNat = d.toNat) : c = d :=
  Char.ext (UInt32.ext h)

theorem listCharLt_total : ∀ a b : List Char, listCharLt a b = false → a ≠ b →
    listCharLt b a = true := by
  intro a
  induction a with
  | nil =>
    intro b hab hne
    cases b with
    | nil => exact absurd rfl hne
    | cons bh bt => cases hab
  | cons ah at' ih =>
    intro b hab hne
    cases b with
    | nil => rfl
    | cons bh bt =>
      rw [listCharLt] at hab ⊢
      by_cases h1 : ah.toNat < bh.toNat
      · rw [if_pos h1] at hab
        cases hab
      · rw [if_neg h1] at hab
        by_cases h2 : ah.toNat = bh.toNat
        · rw [if_pos h2] at hab
          have hch : ah = bh := charEq_of_toNat h2
          rw [if_neg (by omega : ¬bh.toNat < ah.toNat),
            if_pos (by omega : bh.toNat = ah.toNat)]
          exact ih bt hab (fun hl => hne (by rw [hch, hl]))
        · simp [show bh.toNat < ah.toNat from by omega]

theorem strLtB_total {a b : String} (h : strLtB a b = false) (hne : a ≠ b) :
    strLtB b a = true := by
  refine listCharLt_total a.data b.data h ?_
  intro he
  exact hne (by
    cases a
    cases b
    exact congrArg String.mk he)

theorem strLtB_ne {a b : String} (h : strLtB a b = true) : a ≠ b := by
  intro he
  subst he
  rw [strLtB_irrefl] at h
  cases h

theorem sorted_head_lt : ∀ {p : String × Json} {d : Dict},
    keysSortedB (p :: d) = true → ∀ q ∈ d, strLtB p.1 q.1 = true := by
  intro p d
  induction d generalizing p with
  | nil => intro _ q hq; simp at hq
  | cons r d ih =>
    intro h q hq
    obtain ⟨k1, v1⟩ := p
    obtain ⟨k2, v2⟩ := r
    have he : keysSortedB ((k1, v1) :: (k2, v2) :: d) =
      (strLtB k1 k2 && keysSortedB ((k2, v2) :: d)) := rfl
    rw [he, Bool.and_eq_true] at h
    rcases List.mem_cons.mp hq with hq | hq
    · rw [hq]
      exact h.1
    · exact strLtB_trans h.1 (ih h.2 q hq)

theorem dget_none : ∀ {d : Dict} {k : String}, (∀ p ∈ d, p.1 ≠ k) →
    dget d k = none := by
  intro d
  induction d with
  | nil => intro k _; rfl
  | cons p d ih =>
    intro k h
    obtain ⟨k1, v1⟩ := p
    rw [dget, if_neg (h (k1, v1) (by simp))]
    exact ih (fun q hq => h q (by simp [hq]))

theorem dget_dset_self : ∀ (d : Dict) (k : String) (v : Json),
    dget (dset d k v) k = some v := by
  intro d
  induction d with
  | nil => intro k v; simp [dset, dget]
  | cons p d ih =>
    intro k v
    obtain ⟨k1, v1⟩ := p
    rw [dset]
    by_cases h1 : strLtB k k1 = true
    · rw [if_pos h1, dget, if_pos rfl]
    · rw [if_neg (by simp [h1])]
      by_cases h2 : k = k1
      · rw [if_pos h2, dget, if_pos rfl]
      · rw [if_neg h2, dget, if_neg (fun he => h2 he.symm)]
        exact ih k v

theorem dget_dset_ne : ∀ (d : Dict) (k : String) (v : Json) (k' : String),
    k' ≠ k → dget (dset d k v) k' = dget d k' := by
  intro d
  induction d with
  | nil =>
    intro k v k' hne
    simp [dset, dget]
    exact fun he => hne he.symm
  | cons p d ih =>
    intro k v k' hne
    obtain ⟨k1, v1⟩ := p
    rw [dset]
    by_cases h1 : strLtB k k1 = true
    · rw [if_pos h1, dget, if_neg (fun he => hne he.symm)]
    · rw [if_neg (by simp [h1])]
      by_cases h2 : k = k1
      · rw [if_pos h2, dget, if_neg (fun he => hne he.symm), dget,
          if_neg (fun he => hne (h2 ▸ he).symm)]
      · rw [if_neg h2, dget, dget]
        by_cases h3 : k1 = k'
        · rw [if_pos h3, if_pos h3]
        · rw [if_neg h3, if_neg h3]
          exact ih k v k' hne

theorem mem_dset : ∀ (d : Dict) (k : String) (v : Json) (q : String × Json),
    q ∈ dset d k v → q.1 = k ∨ q ∈ d := by
  intro d
  induction d with
  | nil =>
    intro k v q hq
    simp [dset] at hq
    left
    rw [hq]
  | cons p d ih =>
    intro k v q hq
    obtain ⟨k1, v1⟩ := p
    rw [dset] at hq
    by_cases h1 : strLtB k k1 = true
    · rw [if_pos h1] at hq
      rcases List.mem_cons.mp hq with h | h
      · left; rw [h]
      · right; exact h
    · rw [if_neg (by simp [h1])] at hq
      by_cases h2 : k = k1
      · rw [if_pos h2] at hq
        rcases List.mem_cons.mp hq with h | h
        · left; rw [h]
        · right; exact List.mem_cons.mpr (Or.inr h)
      · rw [if_neg h2] at hq
        rcases List.mem_cons.mp hq with h | h
        · right; exact List.mem_cons.mpr (Or.inl h)
        · rcases ih k v q h with h3 | h3
          · left; exact h3
          · right; exact List.mem_cons.mpr (Or.inr h3)

theorem sorted_cons_of {k1 : String} {v1 : Json} {d : Dict}
    (h : keysSortedB d = true) (hlt : ∀ q ∈ d, strLtB k1 q.1 = true) :
    keysSortedB ((k1, v1) :: d) = true := by
  cases d with
  | nil => rfl
  | cons q d =>
    obtain ⟨k2, v2⟩ := q
    have he : keysSortedB ((k1, v1) :: (k2, v2) :: d) =
      (strLtB k1 k2 && keysSortedB ((k2, v2) :: d)) := rfl
    rw [he, Bool.and_eq_true]
    exact ⟨hlt (k2, v2) (by simp), h⟩

theorem keysSorted_dset : ∀ (d : Dict) (k : String) (v : Json),
    keysSortedB d = true → keysSortedB (dset d k v) = true := by
  intro d
  induction d with
  | nil => intro k v _; rfl
  | cons p d ih =>
    intro k v hs
    obtain ⟨k1, v1⟩ := p
    have htail := keysSortedB_tail hs
    have hlt1 := sorted_head_lt hs
    rw [dset]
    by_cases h1 : strLtB k k1 = true
    · rw [if_pos h1]
      refine sorted_cons_of hs ?_
      intro q hq
      rcases List.mem_cons.mp hq with h | h
      · rw [h]
        exact h1
      · exact strLtB_trans h1 (hlt1 q h)
    · rw [if_neg (by simp [h1])]
      by_cases h2 : k = k1
      · rw [if_pos h2]
        subst h2
        exact sorted_cons_of htail hlt1
      · rw [if_neg h2]
        refine sorted_cons_of (ih k v htail) ?_
        intro q hq
        rcases mem_dset d k v q hq with h3 | h3
        · rw [h3]
          exact strLtB_total (by simpa using h1) h2
        · exact hlt1 q h3

theorem wfFields_dset : ∀ (d : Dict) (k : String) (v : Json),
    wfJ v = true → wfFields d = true → wfFields (dset d k v) = true := by
  intro d
  induction d with
  | nil =>
    intro k v hv _
    have he : wfFields [(k, v)] = (wfJ v && wfFields []) := rfl
    rw [show dset [] k v = [(k, v)] from rfl, he, Bool.and_eq_true]
    exact ⟨hv, rfl⟩
  | cons p d ih =>
    intro k v hv hd
    obtain ⟨k1, v1⟩ := p
    have he : wfFields ((k1, v1) :: d) = (wfJ v1 && wfFields d) := rfl
    rw [he, Bool.and_eq_true] at hd
    rw [dset]
    by_cases h1 : strLtB k k1 = true
    · rw [if_pos h1]
      have he2 : wfFields ((k, v) :: (k1, v1) :: d) =
        (wfJ v && wfFields ((k1, v1) :: d)) := rfl
      rw [he2, Bool.and_eq_true, he, Bool.and_eq_true]
      exact ⟨hv, hd⟩
    · rw [if_neg (by simp [h1])]
      by_cases h2 : k = k1
      · rw [if_pos h2]
        have he2 : wfFields ((k, v) :: d) = (wfJ v && wfFields d) := rfl
        rw [he2, Bool.and_eq_true]
        exact ⟨hv, hd.2⟩
      · rw [if_neg h2]
        have he2 : wfFields ((k1, v1) :: dset d k v) =
          (wfJ v1 && wfFields (dset d k v)) := rfl
        rw [he2, Bool.and_eq_true]
        exact ⟨hd.1, ih k v hv hd.2⟩

theorem keysSorted_dupdate : ∀ (l : List (String × Json)) (d : Dict),
    keysSortedB d = true → keysSortedB (dupdate d l) = true := by
  intro l
  induction l with
  | nil => intro d h; exact h
  | cons p l ih =>
    intro d h
    rw [show dupdate d (p :: l) = dupdate (dset d p.1 p.2) l from rfl]
    exact ih _ (keysSorted_dset d p.1 p.2 h)

theorem dget_dupdate : ∀ (l : List (String × Json)) (d : Dict) (k : String),
    keysSortedB l = true →
    dget (dupdate d l) k =
      (match dget l k with
       | some v => some v
       | none => dget d k) := by
  intro l
  induction l with
  | nil => intro d k _; rfl
  | cons p l ih =>
    intro d k hl
    obtain ⟨k1, v1⟩ := p
    rw [show dupdate d ((k1, v1) :: l) = dupdate (dset d k1 v1) l from rfl]
    rw [ih (dset d k1 v1) k (keysSortedB_tail hl)]
    by_cases h1 : k1 = k
    · subst h1
      have hnone : dget l k1 = none := by
        refine dget_none ?_
        intro q hq
        exact (strLtB_ne (sorted_head_lt hl q hq)).symm
      rw [hnone, dget, if_pos rfl, dget_dset_self]
    · rw [dget, if_neg h1]
      cases hlk : dget l k with
      | some v => rfl
      | none => rw [dget_dset_ne d k1 v1 k (fun he => h1 he.symm)]

theorem dict_ext : ∀ (d1 d2 : Dict), keysSortedB d1 = true →
    keysSortedB d2 = true → (∀ k, dget d1 k = dget d2 k) → d1 = d2 := by
  intro d1
  induction d1 with
  | nil =>
    intro d2 _ _ h
    cases d2 with
    | nil => rfl
    | cons p d2 =>
      obtain ⟨k2, v2⟩ := p
      have := h k2
      rw [dget, dget, if_pos rfl] at this
      cases this
  | cons p d1 ih =>
    intro d2 h1 h2 h
    obtain ⟨k1, v1⟩ := p
    cases d2 with
    | nil =>
      have := h k1
      rw [dget, dget, if_pos rfl] at this
      cases this
    | cons q d2 =>
      obtain ⟨k2, v2⟩ := q
      have hk : k1 = k2 := by
        by_contra hne
        by_cases hlt : strLtB k1 k2 = true
        · have hv1 : dget ((k1, v1) :: d1) k1 = some v1 := by
            rw [dget, if_pos rfl]
          have hv2 : dget ((k2, v2) :: d2) k1 = none := by
            rw [dget, if_neg (fun he => (strLtB_ne hlt) he.symm)]
            refine dget_none ?_
            intro r hr
            exact (strLtB_ne (strLtB_trans hlt (sorted_head_lt h2 r hr))).symm
          rw [h k1, hv2] at hv1
          cases hv1
        · have hlt2 : strLtB k2 k1 = true :=
            strLtB_total (by simpa using hlt) hne
          have hv2 : dget ((k2, v2) :: d2) k2 = some v2 := by
            rw [dget, if_pos rfl]
          have hv1 : dget ((k1, v1) :: d1) k2 = none := by
            rw [dget, if_neg (fun he => (strLtB_ne hlt2) he.symm)]
            refine dget_none ?_
            intro r hr
            exact (strLtB_ne (strLtB_trans hlt2 (sorted_head_lt h1 r hr))).symm
          rw [← h k2, hv1] at hv2
          cases hv2
      subst hk
      have hv : v1 = v2 := by
        have := h k1
        rw [dget, dget, if_pos rfl, if_pos rfl] at this
        exact Option.some.inj this
      subst hv
      have htails : ∀ k, dget d1 k = dget d2 k := by
        intro k
        by_cases hke : k1 = k
        · subst hke
          rw [dget_none (fun q hq => (strLtB_ne (sorted_head_lt h1 q hq)).symm),
            dget_none (fun q hq => (strLtB_ne (sorted_head_lt h2 q hq)).symm)]
        · have := h k
          rw [dget, dget, if_neg hke, if_neg hke] at this
          exact this
      rw [ih d2 (keysSortedB_tail h1) (keysSortedB_tail h2) htails]

/-- Merging a parsed dict over the defaults returns exactly the parsed dict
whenever every default key is present in it (the case `Job.start` sets up:
the only default key is `lastRunDateTime`, which `saveConfig` always
stamps). -/
theorem dupdate_singleton_absorb {l : Dict} (hl : keysSortedB l = true)
    (k0 : String) (v0 : Json) (hmem : (dget l k0).isSome = true) :
    dupdate [(k0, v0)] l = l := by
  refine dict_ext _ _ (keysSorted_dupdate l [(k0, v0)] rfl) hl ?_
  intro k
  rw [dget_dupdate l [(k0, v0)] k hl]
  cases hlk : dget l k with
  | some v => rfl
  | none =>
    rw [dget]
    by_cases h1 : k0 = k
    · subst h1
      rw [hlk] at hmem
      cases hmem
    · rw [if_neg h1]
      rfl

/-! ## Lemmas: indentation arithmetic, put, and the Job model -/

theorem runIndent_eq : ∀ (ops : List IndentOp) (d : Int), 0 ≤ d →
    runIndent d ops = d + (countIndents ops : Int) - (effUnIndents d ops : Int) := by
  intro ops
  induction ops with
  | nil =>
    intro d _
    simp [runIndent, countIndents, effUnIndents]
  | cons op rest ih =>
    intro d hd
    cases op with
    | ind =>
      have hstep : runIndent d (IndentOp.ind :: rest) = runIndent (d + 1) rest := rfl
      rw [hstep, ih (d + 1) (by omega),
        show countIndents (IndentOp.ind :: rest) = 1 + countIndents rest from rfl,
        show effUnIndents d (IndentOp.ind :: rest) = effUnIndents (d + 1) rest from rfl]
      push_cast
      ring
    | unind =>
      have hstep : runIndent d (IndentOp.unind :: rest) =
        runIndent (max (d - 1) 0) rest := rfl
      have heff : effUnIndents d (IndentOp.unind :: rest) =
        (if 0 < d then 1 else 0) + effUnIndents (max (d - 1) 0) rest := rfl
      have hcnt : countIndents (IndentOp.unind :: rest) = countIndents rest := rfl
      by_cases hpos : 0 < d
      · have hmax : max (d - 1) 0 = d - 1 := max_eq_left (by omega)
        rw [hstep, hmax, ih (d - 1) (by omega), heff, hcnt, hmax, if_pos hpos]
        push_cast
        ring
      · have hd0 : d = 0 := by omega
        subst hd0
        have hmax : max ((0 : Int) - 1) 0 = 0 := max_eq_right (by omega)
        rw [hstep, hmax, ih 0 (by omega), heff, hcnt, hmax, if_neg hpos]
        push_cast
        ring

theorem runIndent_take_nonneg : ∀ (ops : List IndentOp) (d : Int), 0 ≤ d →
    ∀ n : Nat, 0 ≤ runIndent d (ops.take n) := by
  intro ops
  induction ops with
  | nil =>
    intro d hd n
    simp [runIndent]
    exact hd
  | cons op rest ih =>
    intro d hd n
    cases n with
    | zero => simpa [runIndent] using hd
    | succ n =>
      rw [List.take_succ_cons,
        show runIndent d (op :: rest.take n) =
          runIndent (stepIndent d op) (rest.take n) from rfl]
      refine ih (stepIndent d op) ?_ n
      cases op with
      | ind =>
        rw [show stepIndent d IndentOp.ind = d + 1 from rfl]
        omega
      | unind =>
        rw [show stepIndent d IndentOp.unind = max (d - 1) 0 from rfl]
        exact le_max_right _ _

theorem putLoop_map (d : Int) (ets : Bool) (ts : String) (lv : Int) :
    ∀ (ls : List String) (out : List (Int × String)),
    putLoop d ets ts lv ls out = out ++ ls.map (fun l => (lv, fmtLine d ets ts l)) := by
  intro ls
  induction ls with
  | nil => intro out; simp [putLoop]
  | cons l ls ih =>
    intro out
    rw [putLoop, ih]
    simp

theorem put_map (d : Int) (ets : Bool) (ts : String) (msg : PutMsg) (lv : Int) :
    put d ets ts msg lv = (putLines msg).map (fun l => (lv, fmtLine d ets ts l)) := by
  rw [put, putLoop_map]
  simp

theorem breakNl_no_nl {cs : List Char} (h : '\n' ∉ cs) : breakNl cs = (cs, none) := by
  induction cs with
  | nil => rfl
  | cons c cs ih =>
    have hc : c ≠ '\n' := fun he => h (by simp [he])
    have := ih (fun hm => h (by simp [hm]))
    simp [breakNl, fun he => hc he, this]

theorem splitlinesCh_single {cs : List Char} (hne : cs ≠ []) (h : '\n' ∉ cs) :
    splitlinesCh cs = [cs] :=
  splitlinesCh_of_none hne (breakNl_no_nl h)

/-- Emitting a single newline-free nonempty line produces exactly one
formatted record. -/
theorem put_single {s : String} (hne : s.data ≠ []) (h : '\n' ∉ s.data)
    (d : Int) (lv : Int) :
    put d false "" (.str s) lv = [(lv, fmtLine d false "" s)] := by
  rw [put_map, putLines, splitlinesCh_single hne h]
  simp [strMk_data]

theorem FS.read_write_self (fs : FS) (p : String) (c : String) :
    (fs.write p c).read p = some c := by
  rw [FS.write, FS.read]
  induction fs.files with
  | nil => simp [setStr, lookupStr]
  | cons q rest ih =>
    obtain ⟨p0, c0⟩ := q
    rw [setStr]
    by_cases h : p0 = p
    · rw [if_pos h, lookupStr, if_pos rfl]
    · rw [if_neg h, lookupStr, if_neg h]
      exact ih

theorem jobStart_inv (job : JobState) (now : DT) (amc : Bool) (fs : FS)
    (d0 : Int) :
    (jobStart job now amc fs d0).fs = fs ∧
    (jobStart job now amc fs d0).job.readOnly = job.readOnly ∧
    (jobStart job now amc fs d0).job.quiet = job.quiet := by
  unfold jobStart jobStartTail
  dsimp only
  repeat' split
  all_goals simp

/-! ## The claims -/

/-- C1: for every sequence of `indent` / `unIndent` calls, the
process-wide `INDENT_SIZE` after the sequence equals the depth before
plus the number of `indent` calls minus the number of `unIndent` calls
that fired above depth zero; the depth is never negative at any point of
the trace; and an `unIndent` at depth zero leaves the depth at zero. -/
theorem claim1_indent_depth (d : Int) (ops : List IndentOp) (h : 0 ≤ d) :
    runIndent d ops = d + (countIndents ops : Int) - (effUnIndents d ops : Int) ∧
    (∀ n : Nat, 0 ≤ runIndent d (ops.take n)) ∧
    stepIndent 0 IndentOp.unind = 0 :=
  ⟨runIndent_eq ops d h, runIndent_take_nonneg ops d h, rfl⟩

/-- C1 witness: the invariant at depth 0 over the trace
indent, unIndent, unIndent. -/
theorem claim1_indent_depth_witness :
    runIndent 0 [IndentOp.ind, IndentOp.unind, IndentOp.unind] =
      0 + (countIndents [IndentOp.ind, IndentOp.unind, IndentOp.unind] : Int) -
        (effUnIndents 0 [IndentOp.ind, IndentOp.unind, IndentOp.unind] : Int) ∧
    (∀ n : Nat,
      0 ≤ runIndent 0 ([IndentOp.ind, IndentOp.unind, IndentOp.unind].take n)) ∧
    stepIndent 0 IndentOp.unind = 0 :=
  claim1_indent_depth 0 [IndentOp.ind, IndentOp.unind, IndentOp.unind] (by decide)

/-- C2 (code bug): in the batch form of `indent`, when emitting the title
raises, the `finally` clause still runs `unIndent` although the increment
`INDENT_SIZE += 1` was never reached: from depth 1 the call ends at depth
0 instead of the claimed unchanged depth 1.  (When an item raises after
the increment, and in the scope-handle form under a raising body, the
depth is balanced as claimed: second and third conjuncts.) -/
theorem claim2_batch_title_raise_unbalanced :
    indentCall 1 (some true) (some [false]) = (0, true) ∧
    indentCall 1 (some false) (some [true]) = (1, true) ∧
    withIndentScope 1 (some false) (fun d => (d, true)) = (1, true) := by
  refine ⟨by decide, by decide, ?_⟩
  rfl

/-- C8: `put` derives lines from its argument (splitlines for a string, a
one-element list for a scalar, item by item for an iterable), emits
exactly one record per derived line, in order, and each record's text is
the indent unit repeated depth times, then the ISO timestamp when
timestamps are enabled, then the line's text. -/
theorem claim8_put_spec (d : Int) (ets : Bool) (ts : String) (msg : PutMsg)
    (lv : Int) (s t : String) (items : List String) :
    put d ets ts msg lv = (putLines msg).map (fun l => (lv, fmtLine d ets ts l)) ∧
    (put d ets ts msg lv).length = (putLines msg).length ∧
    putLines (.str s) = (splitlinesCh s.data).map String.mk ∧
    putLines (.scalar t) = [t] ∧
    putLines (.seq items) = items ∧
    fmtLine d true ts s = indentPrefix d ++ (ts ++ (" " ++ s)) ∧
    fmtLine d false ts s = indentPrefix d ++ s := by
  refine ⟨put_map d ets ts msg lv, ?_, rfl, rfl, rfl, rfl, rfl⟩
  rw [put_map]
  simp

/-- C10: constructing `Job(name)` (with any of `Job.__init__`'s keyword
arguments) raises `TypeError`: the super call passes only `name`, while
`MinimalJob.__init__` declares `logLevel` with no default, so the binding
fails before an instance exists. -/
theorem claim10_job_constructor_type_error (name : String)
    (logFilename : Option String) (logLevel : Int) (quiet readOnly : Bool) :
    jobConstruct name logFilename logLevel quiet readOnly =
      ConstructResult.typeError := rfl

/-- C3: for every non-read-only job (as left by a successful `start`, so
its config file name is resolved), `finish(exitCode)` stamps
`lastRunDateTime` with a dict holding exactly the keys year, month, day,
hour, minute (the reading's seconds are dropped), writes the whole
mapping to the config file pretty-printed with sorted keys and trailing
whitespace stripped per line, and exits the process with `exitCode`. -/
theorem claim3_finish_saves_and_exits (job : JobState) (now : DT) (fs : FS)
    (d0 ec : Int) (f : String)
    (hro : job.readOnly = false) (hf : job.configFilename = some f) :
    (jobFinish job now ec fs d0).fs =
      fs.write f (String.mk (saveLines (dumps (Json.obj
        (dset job.config "lastRunDateTime"
          (Json.obj (getCurrentDateTimeDict now))))))) ∧
    (jobFinish job now ec fs d0).result = FinishResult.exited ec ∧
    (jobFinish job now ec fs d0).job.config =
      dset job.config "lastRunDateTime"
        (Json.obj (getCurrentDateTimeDict now)) ∧
    dkeys (getCurrentDateTimeDict now) =
      ["day", "hour", "minute", "month", "year"] ∧
    dget (getCurrentDateTimeDict now) "year" = some (.num now.year) ∧
    dget (getCurrentDateTimeDict now) "month" = some (.num now.month) ∧
    dget (getCurrentDateTimeDict now) "day" = some (.num now.day) ∧
    dget (getCurrentDateTimeDict now) "hour" = some (.num now.hour) ∧
    dget (getCurrentDateTimeDict now) "minute" = some (.num now.minute) := by
  unfold jobFinish
  rw [hro, hf]
  dsimp only
  by_cases hq : job.quiet <;> simp [hq, dkeys, getCurrentDateTimeDict, dget]

/-- C3 witness: a concrete non-read-only job on an empty file system. -/
theorem claim3_finish_saves_and_exits_witness :
    (jobFinish ⟨"t", true, false, "/d", some "/d/config.json",
        [("lastRunDateTime", Json.null)], []⟩ ⟨2024, 5, 6, 7, 8, 9⟩ 0 ⟨[]⟩ 1).fs =
      (FS.mk []).write "/d/config.json" (String.mk (saveLines (dumps (Json.obj
        (dset [("lastRunDateTime", Json.null)] "lastRunDateTime"
          (Json.obj (getCurrentDateTimeDict ⟨2024, 5, 6, 7, 8, 9⟩))))))) ∧
    (jobFinish ⟨"t", true, false, "/d", some "/d/config.json",
        [("lastRunDateTime", Json.null)], []⟩ ⟨2024, 5, 6, 7, 8, 9⟩ 0 ⟨[]⟩ 1).result =
      FinishResult.exited 0 ∧
    (jobFinish ⟨"t", true, false, "/d", some "/d/config.json",
        [("lastRunDateTime", Json.null)], []⟩ ⟨2024, 5, 6, 7, 8, 9⟩ 0 ⟨[]⟩ 1).job.config =
      dset [("lastRunDateTime", Json.null)] "lastRunDateTime"
        (Json.obj (getCurrentDateTimeDict ⟨2024, 5, 6, 7, 8, 9⟩)) ∧
    dkeys (getCurrentDateTimeDict ⟨2024, 5, 6, 7, 8, 9⟩) =
      ["day", "hour", "minute", "month", "year"] ∧
    dget (getCurrentDateTimeDict ⟨2024, 5, 6, 7, 8, 9⟩) "year" = some (.num 2024) ∧
    dget (getCurrentDateTimeDict ⟨2024, 5, 6, 7, 8, 9⟩) "month" = some (.num 5) ∧
    dget (getCurrentDateTimeDict ⟨2024, 5, 6, 7, 8, 9⟩) "day" = some (.num 6) ∧
    dget (getCurrentDateTimeDict ⟨2024, 5, 6, 7, 8, 9⟩) "hour" = some (.num 7) ∧
    dget (getCurrentDateTimeDict ⟨2024, 5, 6, 7, 8, 9⟩) "minute" = some (.num 8) :=
  claim3_finish_saves_and_exits _ ⟨2024, 5, 6, 7, 8, 9⟩ ⟨[]⟩ 1 0 "/d/config.json"
    rfl rfl

/-- C4: for a job marked read-only, neither `start` nor `finish` (with
any exit code) modifies the file system: the config file's bytes after
the whole lifecycle equal its bytes before. -/
theorem claim4_readonly_never_writes (job : JobState) (now now2 : DT)
    (amc : Bool) (fs : FS) (d0 ec : Int) (hro : job.readOnly = true) :
    (jobStart job now amc fs d0).fs = fs ∧
    (jobFinish (jobStart job now amc fs d0).job now2 ec
      (jobStart job now amc fs d0).fs (jobStart job now amc fs d0).depth).fs = fs := by
  obtain ⟨hfs, hro2, _⟩ := jobStart_inv job now amc fs d0
  refine ⟨hfs, ?_⟩
  unfold jobFinish
  rw [hro2, hro]
  dsimp only
  by_cases hq : (jobStart job now amc fs d0).job.quiet <;> simp [hq, hfs]

/-- C4 witness: a read-only job over a one-file file system. -/
theorem claim4_readonly_never_writes_witness :
    (jobStart ⟨"t", false, true, "/d", some "/d/config.json",
        [("lastRunDateTime", Json.null)], []⟩ ⟨2024, 1, 2, 3, 4, 5⟩ true
        ⟨[("/d/config.json", "oldbytes")]⟩ 0).fs =
      ⟨[("/d/config.json", "oldbytes")]⟩ ∧
    (jobFinish (jobStart ⟨"t", false, true, "/d", some "/d/config.json",
        [("lastRunDateTime", Json.null)], []⟩ ⟨2024, 1, 2, 3, 4, 5⟩ true
        ⟨[("/d/config.json", "oldbytes")]⟩ 0).job ⟨2024, 1, 2, 3, 4, 6⟩ 0
      (jobStart ⟨"t", false, true, "/d", some "/d/config.json",
        [("lastRunDateTime", Json.null)], []⟩ ⟨2024, 1, 2, 3, 4, 5⟩ true
        ⟨[("/d/config.json", "oldbytes")]⟩ 0).fs
      (jobStart ⟨"t", false, true, "/d", some "/d/config.json",
        [("lastRunDateTime", Json.null)], []⟩ ⟨2024, 1, 2, 3, 4, 5⟩ true
        ⟨[("/d/config.json", "oldbytes")]⟩ 0).depth).fs =
      ⟨[("/d/config.json", "oldbytes")]⟩ :=
  claim4_readonly_never_writes _ ⟨2024, 1, 2, 3, 4, 5⟩ ⟨2024, 1, 2, 3, 4, 6⟩ true
    ⟨[("/d/config.json", "oldbytes")]⟩ 0 0 rfl

/-- C7: `start(allowMissingConfigFile=False)` with no config file present
fails (raises the missing-config exception to the caller) and leaves the
file system untouched — in particular it does not create the file. -/
theorem claim7_missing_config_fails (job : JobState) (now : DT) (fs : FS)
    (d0 : Int) (f : String) (hf : job.configFilename = some f)
    (hread : fs.read f = none) :
    (jobStart job now false fs d0).err = some StartErr.missingConfig ∧
    (jobStart job now false fs d0).fs = fs := by
  unfold jobStart
  rw [hf]
  dsimp only
  rw [hread]
  simp

/-- C7 witness: an empty file system. -/
theorem claim7_missing_config_fails_witness :
    (jobStart ⟨"t", true, false, "/d", some "/d/config.json",
        [("lastRunDateTime", Json.null)], []⟩ ⟨2024, 1, 2, 3, 4, 5⟩ false
        ⟨[]⟩ 0).err = some StartErr.missingConfig ∧
    (jobStart ⟨"t", true, false, "/d", some "/d/config.json",
        [("lastRunDateTime", Json.null)], []⟩ ⟨2024, 1, 2, 3, 4, 5⟩ false
        ⟨[]⟩ 0).fs = ⟨[]⟩ :=
  claim7_missing_config_fails _ ⟨2024, 1, 2, 3, 4, 5⟩ ⟨[]⟩ 0 "/d/config.json"
    rfl rfl

/-- C5 counterexample: a job constructed with `quiet=True` whose config
file holds unparseable text.  `start` raises the parse error, but emits
no log record at all — in particular it does not log the raw file content
— because the diagnostic block is guarded by `if not self.quiet`.  This
refutes the claim as stated for every job. -/
theorem claim5_quiet_counterexample :
    (jobStart ⟨"t", true, false, "/d", some "/d/config.json",
        [("lastRunDateTime", Json.null)], []⟩ ⟨2024, 1, 2, 3, 4, 5⟩ true
        ⟨[("/d/config.json", "\x7bnot valid json")]⟩ 0).err =
      some StartErr.parseError ∧
    (jobStart ⟨"t", true, false, "/d", some "/d/config.json",
        [("lastRunDateTime", Json.null)], []⟩ ⟨2024, 1, 2, 3, 4, 5⟩ true
        ⟨[("/d/config.json", "\x7bnot valid json")]⟩ 0).logs = [] := by
  constructor <;> rfl

/-- C5 (amended to non-quiet jobs): for every job not constructed quiet
whose config file exists but does not parse, `start` logs the raw file
content at error level inside a new indentation scope (one level below
the freshly opened scope), re-raises the parse error, and adopts no
partial configuration: the in-memory mapping still equals the defaults. -/
theorem claim5_parse_failure_diagnostics (job : JobState) (now : DT)
    (amc : Bool) (fs : FS) (d0 : Int) (f content : String)
    (hq : job.quiet = false) (hf : job.configFilename = some f)
    (hread : fs.read f = some content)
    (hbad : loadJson content.data = none) :
    (jobStart job now amc fs d0).err = some StartErr.parseError ∧
    (jobStart job now amc fs d0).job.config = job.config ∧
    (jobStart job now amc fs d0).logs =
      put d0 false "" (.str (job.name ++ " job started at " ++
        dateStringNow now)) INFO ++
      put (d0 + 1) false "" (.str ("Loading config from " ++ f ++ "...")) INFO ++
      (put (d0 + 1) false "" (.str "Config file couldn't be parsed!") INFO ++
        put (d0 + 2) false "" (.str content) ERROR) := by
  unfold jobStart
  rw [hf]
  dsimp only
  rw [hread]
  dsimp only
  rw [hbad]
  simp [hq]
  rw [show d0 + 1 + 1 = d0 + 2 from by ring]

/-- C5 amended witness: a concrete non-quiet job and malformed file. -/
theorem claim5_parse_failure_diagnostics_witness :
    (jobStart ⟨"t", false, false, "/d", some "/c",
        [("lastRunDateTime", Json.null)], []⟩ ⟨2024, 1, 2, 3, 4, 5⟩ true
        ⟨[("/c", "\x7bbad")]⟩ 0).err = some StartErr.parseError ∧
    (jobStart ⟨"t", false, false, "/d", some "/c",
        [("lastRunDateTime", Json.null)], []⟩ ⟨2024, 1, 2, 3, 4, 5⟩ true
        ⟨[("/c", "\x7bbad")]⟩ 0).job.config = [("lastRunDateTime", Json.null)] ∧
    (jobStart ⟨"t", false, false, "/d", some "/c",
        [("lastRunDateTime", Json.null)], []⟩ ⟨2024, 1, 2, 3, 4, 5⟩ true
        ⟨[("/c", "\x7bbad")]⟩ 0).logs =
      put 0 false "" (.str ("t" ++ " job started at " ++
        dateStringNow ⟨2024, 1, 2, 3, 4, 5⟩)) INFO ++
      put (0 + 1) false "" (.str ("Loading config from " ++ "/c" ++ "...")) INFO ++
      (put (0 + 1) false "" (.str "Config file couldn't be parsed!") INFO ++
        put (0 + 2) false "" (.str "\x7bbad") ERROR) :=
  claim5_parse_failure_diagnostics _ ⟨2024, 1, 2, 3, 4, 5⟩ true
    ⟨[("/c", "\x7bbad")]⟩ 0 "/c" "\x7bbad" rfl rfl rfl rfl

theorem jobFinish_fs_eq (job : JobState) (now : DT) (ec : Int) (fs : FS)
    (d0 : Int) (f : String)
    (hro : job.readOnly = false) (hf : job.configFilename = some f) :
    (jobFinish job now ec fs d0).fs =
      fs.write f (String.mk (saveLines (dumps (Json.obj
        (dset job.config "lastRunDateTime"
          (Json.obj (getCurrentDateTimeDict now))))))) := by
  unfold jobFinish
  rw [hro, hf]
  dsimp only
  by_cases hq : job.quiet <;> simp [hq]

theorem wfJ_dtDict (now : DT) :
    wfJ (Json.obj (getCurrentDateTimeDict now)) = true := rfl

theorem truthy_dtDict (now : DT) :
    truthy (Json.obj (getCurrentDateTimeDict now)) = true := rfl

theorem jsonDateString_dtDict (now : DT) :
    jsonDateString (Json.obj (getCurrentDateTimeDict now)) =
      some (dateStringD now.year now.month now.day now.hour now.minute) := rfl

/-- C6: round-trip — saving any canonically represented configuration
mapping through a non-read-only `finish` and reloading it with a fresh
job's `start` (defaults `{lastRunDateTime: None}`, same config path)
succeeds and yields the original mapping except that `lastRunDateTime`
now holds the date/time stamped at save. -/
theorem claim6_config_roundtrip (cfg : Dict) (job1 job2 : JobState)
    (f : String) (now now2 : DT) (fs : FS) (d0 d1 ec : Int) (amc : Bool)
    (hwf : wfJ (Json.obj cfg) = true)
    (h1 : job1.readOnly = false) (h2 : job1.config = cfg)
    (h3 : job1.configFilename = some f)
    (h4 : job2.configFilename = some f)
    (h5 : job2.config = [("lastRunDateTime", Json.null)]) :
    (jobStart job2 now2 amc (jobFinish job1 now ec fs d0).fs d1).err = none ∧
    (jobStart job2 now2 amc (jobFinish job1 now ec fs d0).fs d1).job.config =
      dset cfg "lastRunDateTime" (Json.obj (getCurrentDateTimeDict now)) := by
  have hwf2 : wfJ (Json.obj (dset cfg "lastRunDateTime"
      (Json.obj (getCurrentDateTimeDict now)))) = true := by
    have he : wfJ (Json.obj cfg) = (keysSortedB cfg && wfFields cfg) := rfl
    rw [he, Bool.and_eq_true] at hwf
    have he2 : wfJ (Json.obj (dset cfg "lastRunDateTime"
        (Json.obj (getCurrentDateTimeDict now)))) =
      (keysSortedB (dset cfg "lastRunDateTime"
          (Json.obj (getCurrentDateTimeDict now))) &&
        wfFields (dset cfg "lastRunDateTime"
          (Json.obj (getCurrentDateTimeDict now)))) := rfl
    rw [he2, Bool.and_eq_true]
    exact ⟨keysSorted_dset cfg _ _ hwf.1,
      wfFields_dset cfg _ _ (wfJ_dtDict now) hwf.2⟩
  have hffs := jobFinish_fs_eq job1 now ec fs d0 f h1 h3
  rw [h2] at hffs
  unfold jobStart
  rw [h4]
  dsimp only
  rw [hffs, FS.read_write_self]
  dsimp only
  rw [loadJson_save_dumps hwf2]
  dsimp only
  rw [h5, dupdate_singleton_absorb
    (by
      have he : wfJ (Json.obj cfg) = (keysSortedB cfg && wfFields cfg) := rfl
      rw [he, Bool.and_eq_true] at hwf
      exact keysSorted_dset cfg _ _ hwf.1)
    "lastRunDateTime" Json.null
    (by rw [dget_dset_self]; rfl)]
  unfold jobStartTail
  split
  · simp [dget_dset_self, truthy_dtDict, jsonDateString_dtDict]
  · exact ⟨rfl, rfl⟩

/-- C6 witness: a concrete one-key mapping saved and reloaded. -/
theorem claim6_config_roundtrip_witness :
    (jobStart ⟨"t", true, false, "/d", some "/c",
        [("lastRunDateTime", Json.null)], []⟩ ⟨2025, 1, 1, 1, 1, 1⟩ true
      (jobFinish ⟨"s", true, false, "/d", some "/c",
          [("a", Json.num 7), ("lastRunDateTime", Json.null)], []⟩
        ⟨2024, 12, 31, 23, 59, 58⟩ 0 ⟨[]⟩ 0).fs 0).err = none ∧
    (jobStart ⟨"t", true, false, "/d", some "/c",
        [("lastRunDateTime", Json.null)], []⟩ ⟨2025, 1, 1, 1, 1, 1⟩ true
      (jobFinish ⟨"s", true, false, "/d", some "/c",
          [("a", Json.num 7), ("lastRunDateTime", Json.null)], []⟩
        ⟨2024, 12, 31, 23, 59, 58⟩ 0 ⟨[]⟩ 0).fs 0).job.config =
      dset [("a", Json.num 7), ("lastRunDateTime", Json.null)] "lastRunDateTime"
        (Json.obj (getCurrentDateTimeDict ⟨2024, 12, 31, 23, 59, 58⟩)) :=
  claim6_config_roundtrip [("a", Json.num 7), ("lastRunDateTime", Json.null)]
    ⟨"s", true, false, "/d", some "/c",
      [("a", Json.num 7), ("lastRunDateTime", Json.null)], []⟩
    ⟨"t", true, false, "/d", some "/c", [("lastRunDateTime", Json.null)], []⟩
    "/c" ⟨2024, 12, 31, 23, 59, 58⟩ ⟨2025, 1, 1, 1, 1, 1⟩ ⟨[]⟩ 0 0 0 true
    (by rfl) rfl rfl rfl rfl rfl

theorem optTruthy_some {o : Option Json} (h : optTruthy o = true) :
    ∃ v, o = some v ∧ truthy v = true := by
  cases o with
  | none => simp [optTruthy] at h
  | some v => exact ⟨v, rfl, by simpa [optTruthy] using h⟩

theorem emailFieldStep_missing {args config : Dict} {k : String}
    (h : optTruthy (pyOrGet args config k) = false) (d : Int)
    (acc : Dict × List (Int × String) × Bool) :
    emailFieldStep args config d acc k =
      (acc.1, acc.2.1 ++ put d false "" (.str (emailWarnLine k)) WARN, true) := by
  unfold emailFieldStep
  cases hp : pyOrGet args config k with
  | none => rfl
  | some v =>
    rw [hp] at h
    simp only [optTruthy] at h
    simp [h]

theorem emailFieldStep_truthy {args config : Dict} {k : String} {v : Json}
    (hp : pyOrGet args config k = some v) (hv : truthy v = true) (d : Int)
    (acc : Dict × List (Int × String) × Bool) :
    emailFieldStep args config d acc k = (dset acc.1 k v, acc.2.1, acc.2.2) := by
  unfold emailFieldStep
  rw [hp]
  simp [hv]

theorem emailFieldStep_flag (args config : Dict) (d : Int)
    (acc : Dict × List (Int × String) × Bool) (k : String) (h : acc.2.2 = true) :
    (emailFieldStep args config d acc k).2.2 = true := by
  rcases Bool.eq_false_or_eq_true (optTruthy (pyOrGet args config k)) with ht | ht
  · obtain ⟨v, hp, hv⟩ := optTruthy_some ht
    rw [emailFieldStep_truthy hp hv]
    exact h
  · rw [emailFieldStep_missing ht]

theorem emailFold_flag_mono (args config : Dict) (d : Int) :
    ∀ (ks : List String) (acc : Dict × List (Int × String) × Bool),
      acc.2.2 = true →
      (ks.foldl (emailFieldStep args config d) acc).2.2 = true := by
  intro ks
  induction ks with
  | nil => intro acc h; exact h
  | cons a rest ih =>
    intro acc h
    exact ih _ (emailFieldStep_flag args config d acc a h)

theorem emailFold_flag_of_missing (args config : Dict) (d : Int) :
    ∀ (ks : List String) (acc : Dict × List (Int × String) × Bool) (k : String),
      k ∈ ks → optTruthy (pyOrGet args config k) = false →
      (ks.foldl (emailFieldStep args config d) acc).2.2 = true := by
  intro ks
  induction ks with
  | nil => intro acc k hk _; cases hk
  | cons a rest ih =>
    intro acc k hk hm
    rcases List.mem_cons.mp hk with he | ht
    · subst he
      rw [List.foldl_cons]
      apply emailFold_flag_mono
      rw [emailFieldStep_missing hm]
    · exact ih _ k ht hm

theorem emailFieldStep_log_mem (args config : Dict) (d : Int)
    (acc : Dict × List (Int × String) × Bool) (k : String) (x : Int × String)
    (h : x ∈ acc.2.1) :
    x ∈ (emailFieldStep args config d acc k).2.1 := by
  rcases Bool.eq_false_or_eq_true (optTruthy (pyOrGet args config k)) with ht | ht
  · obtain ⟨v, hp, hv⟩ := optTruthy_some ht
    rw [emailFieldStep_truthy hp hv]
    exact h
  · rw [emailFieldStep_missing ht]
    exact List.mem_append_left _ h

theorem emailFold_log_mem (args config : Dict) (d : Int) :
    ∀ (ks : List String) (acc : Dict × List (Int × String) × Bool)
      (x : Int × String), x ∈ acc.2.1 →
      x ∈ (ks.foldl (emailFieldStep args config d) acc).2.1 := by
  intro ks
  induction ks with
  | nil => intro acc x h; exact h
  | cons a rest ih =>
    intro acc x h
    exact ih _ x (emailFieldStep_log_mem args config d acc a x h)

theorem emailFold_warn_of_missing (args config : Dict) (d : Int) :
    ∀ (ks : List String) (acc : Dict × List (Int × String) × Bool) (k : String),
      k ∈ ks → optTruthy (pyOrGet args config k) = false →
      (emailWarnLine k).data ≠ [] → '\n' ∉ (emailWarnLine k).data →
      (WARN, fmtLine d false "" (emailWarnLine k))
        ∈ (ks.foldl (emailFieldStep args config d) acc).2.1 := by
  intro ks
  induction ks with
  | nil => intro acc k hk _ _ _; cases hk
  | cons a rest ih =>
    intro acc k hk hm hne hnl
    rcases List.mem_cons.mp hk with he | ht
    · subst he
      rw [List.foldl_cons]
      apply emailFold_log_mem
      rw [emailFieldStep_missing hm, put_single hne hnl]
      exact List.mem_append_right _ (List.mem_singleton.mpr rfl)
    · exact ih _ k ht hm hne hnl

theorem emailFieldStep_dict_ne (args config : Dict) (d : Int)
    (acc : Dict × List (Int × String) × Bool) (j k : String) (hne : k ≠ j) :
    dget (emailFieldStep args config d acc j).1 k = dget acc.1 k := by
  rcases Bool.eq_false_or_eq_true (optTruthy (pyOrGet args config j)) with ht | ht
  · obtain ⟨v, hp, hv⟩ := optTruthy_some ht
    rw [emailFieldStep_truthy hp hv]
    exact dget_dset_ne acc.1 j v k hne
  · rw [emailFieldStep_missing ht]

theorem emailFold_dict_notin (args config : Dict) (d : Int) :
    ∀ (ks : List String) (acc : Dict × List (Int × String) × Bool) (k : String),
      k ∉ ks →
      dget (ks.foldl (emailFieldStep args config d) acc).1 k = dget acc.1 k := by
  intro ks
  induction ks with
  | nil => intro acc k _; rfl
  | cons a rest ih =>
    intro acc k hk
    have h1 : k ≠ a := fun he => hk (he ▸ List.mem_cons_self a rest)
    have h2 : k ∉ rest := fun hm => hk (List.mem_cons_of_mem a hm)
    rw [List.foldl_cons, ih _ k h2, emailFieldStep_dict_ne args config d acc a k h1]

theorem emailFold_dict_get (args config : Dict) (d : Int) :
    ∀ (ks : List String) (acc : Dict × List (Int × String) × Bool) (k : String),
      k ∈ ks → ks.Nodup → optTruthy (pyOrGet args config k) = true →
      dget (ks.foldl (emailFieldStep args config d) acc).1 k
        = pyOrGet args config k := by
  intro ks
  induction ks with
  | nil => intro acc k hk _ _; cases hk
  | cons a rest ih =>
    intro acc k hk hnd ht
    rcases List.mem_cons.mp hk with he | hmem
    · subst he
      have hnotin : k ∉ rest := (List.nodup_cons.mp hnd).1
      obtain ⟨v, hp, hv⟩ := optTruthy_some ht
      rw [List.foldl_cons, emailFold_dict_notin args config d rest _ k hnotin,
        emailFieldStep_truthy hp hv, hp]
      exact dget_dset_self acc.1 k v
    · exact ih _ k hmem (List.nodup_cons.mp hnd).2 ht

theorem emailFieldStep_flag_truthy (args config : Dict) (d : Int)
    (acc : Dict × List (Int × String) × Bool) (k : String)
    (ht : optTruthy (pyOrGet args config k) = true) :
    (emailFieldStep args config d acc k).2.2 = acc.2.2 := by
  obtain ⟨v, hp, hv⟩ := optTruthy_some ht
  rw [emailFieldStep_truthy hp hv]

theorem emailFold_flag_all_truthy (args config : Dict) (d : Int) :
    ∀ (ks : List String) (acc : Dict × List (Int × String) × Bool),
      (∀ k ∈ ks, optTruthy (pyOrGet args config k) = true) →
      (ks.foldl (emailFieldStep args config d) acc).2.2 = acc.2.2 := by
  intro ks
  induction ks with
  | nil => intro acc _; rfl
  | cons a rest ih =>
    intro acc hall
    rw [List.foldl_cons, ih _ (fun k hk => hall k (List.mem_cons_of_mem a hk)),
      emailFieldStep_flag_truthy args config d acc a (hall a (List.mem_cons_self a rest))]

/-- C9: whenever one of `email_from`, `email_to`, `email_password` has no
truthy value in the arguments or the config, the returned mapping carries
`email_enabled = false` and a warning line naming each such missing field is
among the emitted log records; when all three are truthy, each key of the
result holds the argument value if truthy, else the config value (the value
of `self.arguments.get(k) or self.config.get(k)`). -/
theorem claim9_email_config (args config : Dict) (d : Int) :
    ((∃ k ∈ emailFields, optTruthy (pyOrGet args config k) = false) →
      dget (getEmailConfigFromArgsAndConfigFile args config d).1 "email_enabled"
          = some (Json.bool false) ∧
        ∀ k ∈ emailFields, optTruthy (pyOrGet args config k) = false →
          (WARN, fmtLine d false "" (emailWarnLine k))
            ∈ (getEmailConfigFromArgsAndConfigFile args config d).2) ∧
    ((∀ k ∈ emailFields, optTruthy (pyOrGet args config k) = true) →
      ∀ k ∈ emailFields,
        dget (getEmailConfigFromArgsAndConfigFile args config d).1 k
          = pyOrGet args config k) := by
  constructor
  · rintro ⟨k0, hk0, hm0⟩
    have hflag :
        (emailFields.foldl (emailFieldStep args config d) ([], [], false)).2.2
          = true :=
      emailFold_flag_of_missing args config d emailFields _ k0 hk0 hm0
    constructor
    · unfold getEmailConfigFromArgsAndConfigFile
      dsimp only
      rw [if_pos hflag]
      exact dget_dset_self _ _ _
    · intro k hk hm
      unfold getEmailConfigFromArgsAndConfigFile
      dsimp only
      apply List.mem_append_left
      simp only [emailFields, List.mem_cons, List.not_mem_nil, or_false] at hk
      rcases hk with rfl | rfl | rfl <;>
        exact emailFold_warn_of_missing args config d emailFields ([], [], false)
          _ (by decide) hm (by decide) (by decide)
  · intro hall k hk
    have hflag :
        (emailFields.foldl (emailFieldStep args config d) ([], [], false)).2.2
          = false := by
      rw [emailFold_flag_all_truthy args config d emailFields _ hall]
    have hkne : k ≠ "email_enabled" := by
      have hkc := hk
      simp only [emailFields, List.mem_cons, List.not_mem_nil, or_false] at hkc
      rcases hkc with rfl | rfl | rfl <;> decide
    unfold getEmailConfigFromArgsAndConfigFile
    dsimp only
    rw [hflag]
    rw [if_neg (by simp)]
    cases hE : dget args "email_enabled" with
    | some v =>
      rw [dget_dset_ne _ _ _ _ hkne]
      exact emailFold_dict_get args config d emailFields _ k hk (by decide)
        (hall k hk)
    | none =>
      rw [dget_dset_ne _ _ _ _ hkne]
      exact emailFold_dict_get args config d emailFields _ k hk (by decide)
        (hall k hk)

theorem claim9_email_config_witness :
    (dget (getEmailConfigFromArgsAndConfigFile [] [] 0).1 "email_enabled"
        = some (Json.bool false) ∧
      ∀ k ∈ emailFields, optTruthy (pyOrGet [] [] k) = false →
        (WARN, fmtLine 0 false "" (emailWarnLine k))
          ∈ (getEmailConfigFromArgsAndConfigFile [] [] 0).2) ∧
    (∀ k ∈ emailFields,
      dget (getEmailConfigFromArgsAndConfigFile
          [("email_from", Json.str "a"), ("email_password", Json.str "c"),
            ("email_to", Json.str "b")] [] 0).1 k
        = pyOrGet [("email_from", Json.str "a"), ("email_password", Json.str "c"),
            ("email_to", Json.str "b")] [] k) :=
  ⟨(claim9_email_config [] [] 0).1 ⟨"email_from", by decide, by decide⟩,
    (claim9_email_config
      [("email_from", Json.str "a"), ("email_password", Json.str "c"),
        ("email_to", Json.str "b")] [] 0).2 (by decide)⟩

end PyBase
